import Mathlib

/-!
Verification of the core renaming engine of pyFileRen.py (pyFileRenamer).

The program is a wxPython GUI; its algorithmic core is the function
`FileRenamerFrame.updateFileList` (folder -> file matching and new-name
computation), the folder collector `FileRenamerFrame.addFolders` together
with the folder-selection handler, and the rename executor in
`FileRenamerFrame.onButtonPressDown` ("run_btn" branch).

Strings are modelled as `List Char`.  Python string operations used by the
source (`in`, `str.replace`, `str.split`, `os.path.basename`,
`os.path.join`, `str.zfill`, `str`) are translated below, and the glob
module's matching behaviour (shell-style wildcards, with names starting
with '.' hidden from wildcard patterns) is translated for the two call
sites `glob(path.join(dp, '*'))` and `glob(path.join(dp, fileForm))`.
The filesystem itself is modelled as a finite tree of named nodes.
-/

namespace PyFileRen

abbrev Str := List Char

def strL (s : String) : Str := s.data

/-- Python `pat in s` (substring test) on strings. -/
def hasSub : Str → Str → Bool
  | s@(_ :: rest), pat => pat.isPrefixOf s || hasSub rest pat
  | [], pat => pat.isEmpty

/-- Worker for `replaceL`: Python `str.replace` with a nonempty pattern
`p :: ps`, scanning left to right and replacing non-overlapping
occurrences.  The fuel argument (`s.length` at the call site) only makes
the recursion structural: each step consumes at least one character. -/
def replaceCore (p : Char) (ps rep : Str) : Nat → Str → Str
  | 0, s => s
  | _ + 1, [] => []
  | fuel + 1, c :: rest =>
    if (p :: ps).isPrefixOf (c :: rest) then
      rep ++ replaceCore p ps rep fuel (rest.drop ps.length)
    else
      c :: replaceCore p ps rep fuel rest

/-- Python `s.replace(pat, rep)`.  An empty pattern inserts `rep` at every
position, matching CPython semantics. -/
def replaceL (s pat rep : Str) : Str :=
  match pat with
  | [] => rep ++ s.flatMap (fun c => c :: rep)
  | p :: ps => replaceCore p ps rep s.length s

/-- Python `s.split(sep)` for a single-character separator: always returns
at least one (possibly empty) segment. -/
def splitOnChar (sep : Char) : Str → List Str
  | [] => [[]]
  | c :: rest =>
    match splitOnChar sep rest with
    | [] => [[]]
    | h :: t => if c = sep then [] :: h :: t else (c :: h) :: t

/-- Python `os.path.basename`: the part after the last '/'. -/
def basename (p : Str) : Str := ((p.reverse).takeWhile (fun c => c ≠ '/')).reverse

/-- The part of a path up to and including its last '/' (empty when the
path has no '/'); `p = parentDir p ++ basename p`. -/
def parentDir (p : Str) : Str := ((p.reverse).dropWhile (fun c => c ≠ '/')).reverse

/-- Python `os.path.join(a, b)` on POSIX paths (two arguments). -/
def pathJoin (a b : Str) : Str :=
  if b.head? = some '/' then b
  else if a = [] then b
  else if a.getLast? = some '/' then a ++ b
  else a ++ '/' :: b

/-- Python `s.zfill(w)` for digit strings: left-pad with '0' to width `w`. -/
def zfill (w : Nat) (s : Str) : Str := List.replicate (w - s.length) '0' ++ s

/-- Decimal digits of a number, most significant first, prepended to an
accumulator.  The first argument is fuel (any value at least the number
itself works), making the recursion structural. -/
def natToStrAux : Nat → Nat → Str → Str
  | 0, _, acc => acc
  | _ + 1, 0, acc => acc
  | fuel + 1, m + 1, acc =>
    natToStrAux fuel ((m + 1) / 10) (Nat.digitChar ((m + 1) % 10) :: acc)

/-- Python `str(n)` for a natural number. -/
def natToStr (n : Nat) : Str := if n = 0 then ['0'] else natToStrAux n n []

/-- Parse a digit string, ignoring leading zeros, starting from `a`. -/
def strToNatFrom (a : Nat) (s : Str) : Nat :=
  s.foldl (fun x c => x * 10 + (c.toNat - 48)) a

def strToNat (s : Str) : Nat := strToNatFrom 0 s

/-- The `folderN` replacement value: `folderPath.split('/')` with all empty
segments removed, then the last element (or "" when none remain);
pyFileRen.py lines 926-929. -/
def folderNameOf (folderPath : Str) : Str :=
  ((splitOnChar '/' folderPath).filter (fun seg => seg ≠ [])).getLastD []

/-- The five recognized template tokens (`self.newFFO`, lines 287-293). -/
inductive FFOToken
  | oFileN
  | folderN
  | incNum
  | incNumInFolder
  | ts
deriving DecidableEq

def tokenKey : FFOToken → Str
  | .oFileN => strL "oFileN"
  | .folderN => strL "folderN"
  | .incNum => strL "incNum"
  | .incNumInFolder => strL "incNumInFolder"
  | .ts => strL "ts"

/-- The bracket form `"[%s]" % k` (line 915). -/
def tokenStr (k : FFOToken) : Str := '[' :: (tokenKey k ++ [']'])

def newFFO : List FFOToken :=
  [.oFileN, .folderN, .incNum, .incNumInFolder, .ts]

/-- Python `k.startswith("incNum")` over the five token keys. -/
def isIncTok (k : FFOToken) : Bool :=
  decide (k = FFOToken.incNum) || decide (k = FFOToken.incNumInFolder)

/-- Observation record for one turn of the token loop (lines 914-937):
the token, the partially substituted name and counter as the turn starts,
whether the token's bracket form was found (and hence fired), and the
replacement string used (empty when the token was skipped). -/
structure TokStep where
  token : FFOToken
  nameBefore : Str
  incNBefore : Nat
  fired : Bool
  rStr : Str
deriving DecidableEq

/-- The token loop `for k in self.newFFO` of `updateFileList`
(lines 914-937), for one file entry.  Checks the bracket form against the
evolving `newFN`; resets the shared counter for `incNumInFolder` on a
folder change; zero-pads the counter; increments the counter after use for
both `incNum`-prefixed tokens; performs a replace-all substitution.
Returns the final name, the final counter, and the per-turn trace. -/
def processTokens (folderPath prevFolderP oFN tsStr : Str) (zeroPadN : Nat) :
    List FFOToken → Str → Nat → Str × Nat × List TokStep
  | [], newFN, incN => (newFN, incN, [])
  | k :: rest, newFN, incN =>
    let tStr := tokenStr k
    if hasSub newFN tStr then
      let incN1 := if k = FFOToken.incNumInFolder ∧ folderPath ≠ prevFolderP then 1 else incN
      let rStr :=
        match k with
        | FFOToken.oFileN => oFN
        | FFOToken.folderN => folderNameOf folderPath
        | FFOToken.incNum => zfill zeroPadN (natToStr incN1)
        | FFOToken.incNumInFolder => zfill zeroPadN (natToStr incN1)
        | FFOToken.ts => tsStr
      let incN2 := if isIncTok k then incN1 + 1 else incN1
      let r := processTokens folderPath prevFolderP oFN tsStr zeroPadN rest
        (replaceL newFN tStr rStr) incN2
      (r.1, r.2.1, ⟨k, newFN, incN, true, rStr⟩ :: r.2.2)
    else
      let r := processTokens folderPath prevFolderP oFN tsStr zeroPadN rest newFN incN
      (r.1, r.2.1, ⟨k, newFN, incN, false, []⟩ :: r.2.2)

/-- One planned entry of `updateFileList`: the source path, the derived
base name, folder string, original name and extension, the token trace,
the expanded new name and the destination path. -/
structure EntryResult where
  fp : Str
  bn : Str
  folderPath : Str
  oFN : Str
  oFExt : Str
  steps : List TokStep
  newFN : Str
  newFP : Str
deriving DecidableEq

/-- The body of `for i, fp in enumerate(self.fileList)` in
`updateFileList` (lines 900-952), for one entry: derive `bn`,
`folderPath = fp.replace(bn, "")`, set `prevFolderP` to the current folder
on the first iteration, split the base name on '.', run the token loop,
append the original extension, and place the result in the override folder
when `self.folder2moveRenFile` is nonempty, else in `folderPath`.
Returns the entry together with the updated counter and `prevFolderP`. -/
def processEntry (newForm folder2move tsStr : Str) (zeroPadN : Nat)
    (idx incN : Nat) (prevFolderP0 : Str) (fp : Str) :
    EntryResult × Nat × Str :=
  let bn := basename fp
  let folderPath := replaceL fp bn []
  let prevFolderP := if idx = 0 then folderPath else prevFolderP0
  let fn := splitOnChar '.' bn
  let oFN := fn.headD []
  let oFExt := fn.getLastD []
  let r := processTokens folderPath prevFolderP oFN tsStr zeroPadN newFFO newForm incN
  let nm := r.1 ++ '.' :: oFExt
  let newFP := if folder2move ≠ [] then pathJoin folder2move nm else pathJoin folderPath nm
  (⟨fp, bn, folderPath, oFN, oFExt, r.2.2, r.1, newFP⟩, r.2.1, folderPath)

/-- The whole planning loop of `updateFileList` over `self.fileList`,
threading the index, the shared counter `incN` and `prevFolderP`. -/
def planLoop (newForm folder2move tsStr : Str) (zeroPadN : Nat) :
    Nat → Nat → Str → List Str → List EntryResult × Nat × Str
  | _, incN, prevFolderP, [] => ([], incN, prevFolderP)
  | idx, incN, prevFolderP, fp :: rest =>
    let e := processEntry newForm folder2move tsStr zeroPadN idx incN prevFolderP fp
    let r := planLoop newForm folder2move tsStr zeroPadN (idx + 1) e.2.1 e.2.2 rest
    (e.1 :: r.1, r.2)

/-- The name-generation phase of `updateFileList` (lines 890-952): given
the matched file list, the template `newForm`, the destination override
`self.folder2moveRenFile` ("" = unset) and the timestamp string, compute
all planned entries.  `zeroPadN = len(str(len(self.fileList)))`
(line 895); `incN` starts at 1 (line 894); `prevFolderP` starts as ""
(line 897).  Returns the entries with the final counter and folder. -/
def computePlan (fileList : List Str) (newForm folder2move tsStr : Str) :
    List EntryResult × Nat × Str :=
  planLoop newForm folder2move tsStr ((natToStr fileList.length).length) 0 1 [] fileList

/-- `self.nFileList` as computed by the plan. -/
def nFileListOf (plan : List EntryResult) : List Str := plan.map EntryResult.newFP

/-- The replacement values actually substituted for token `k`, in plan
order (one per entry where the token fired). -/
def tokenValues (plan : List EntryResult) (k : FFOToken) : List Str :=
  plan.flatMap (fun e =>
    (e.steps.filter (fun s => decide (s.token = k) && s.fired)).map TokStep.rStr)

/-- Whether token `k` fired for entry `e`. -/
def firedAt (e : EntryResult) (k : FFOToken) : Bool :=
  e.steps.any (fun s => decide (s.token = k) && s.fired)

/-! ### Lemmas about decimal strings -/

theorem natToStrAux_zero (fuel : Nat) (acc : Str) : natToStrAux fuel 0 acc = acc := by
  cases fuel <;> rfl

theorem natToStrAux_eq_append (n : Nat) :
    ∀ fuel acc, n ≤ fuel → natToStrAux fuel n acc = natToStrAux fuel n [] ++ acc := by
  induction n using Nat.strong_induction_on with
  | _ n ih =>
    intro fuel acc hfuel
    rcases n with _ | m
    · rw [natToStrAux_zero, natToStrAux_zero]
      simp
    · rcases fuel with _ | f
      · omega
      · have hdiv : (m + 1) / 10 < m + 1 := Nat.div_lt_self (by omega) (by omega)
        have hq : (m + 1) / 10 ≤ f := by omega
        rw [natToStrAux, natToStrAux]
        rw [ih ((m + 1) / 10) hdiv f _ hq]
        rw [ih ((m + 1) / 10) hdiv f [Nat.digitChar ((m + 1) % 10)] hq]
        simp

theorem strToNatFrom_append (a : Nat) (s t : Str) :
    strToNatFrom a (s ++ t) = strToNatFrom (strToNatFrom a s) t := by
  simp [strToNatFrom, List.foldl_append]

theorem digitChar_toNat_sub (m : Nat) (h : m < 10) :
    (Nat.digitChar m).toNat - 48 = m := by
  interval_cases m <;> decide

theorem strToNatFrom_natToStrAux (n : Nat) :
    ∀ fuel a, n ≤ fuel → strToNatFrom a (natToStrAux fuel n []) =
      a * 10 ^ (natToStrAux fuel n []).length + n := by
  induction n using Nat.strong_induction_on with
  | _ n ih =>
    intro fuel a hfuel
    rcases n with _ | m
    · rw [natToStrAux_zero]
      simp [strToNatFrom]
    · rcases fuel with _ | f
      · omega
      · have hdiv : (m + 1) / 10 < m + 1 := Nat.div_lt_self (by omega) (by omega)
        have hq : (m + 1) / 10 ≤ f := by omega
        rw [natToStrAux, natToStrAux_eq_append ((m + 1) / 10) f _ hq]
        rw [strToNatFrom_append]
        rw [ih ((m + 1) / 10) hdiv f a hq]
        have hd : strToNatFrom
            (a * 10 ^ (natToStrAux f ((m + 1) / 10) []).length + (m + 1) / 10)
            [Nat.digitChar ((m + 1) % 10)] =
            (a * 10 ^ (natToStrAux f ((m + 1) / 10) []).length + (m + 1) / 10) * 10 +
              (m + 1) % 10 := by
          simp [strToNatFrom, digitChar_toNat_sub ((m + 1) % 10) (Nat.mod_lt _ (by omega))]
        rw [hd]
        have hlen : (natToStrAux f ((m + 1) / 10) [] ++ [Nat.digitChar ((m + 1) % 10)]).length =
            (natToStrAux f ((m + 1) / 10) []).length + 1 := by simp
        rw [hlen]
        have := Nat.div_add_mod (m + 1) 10
        ring_nf
        omega

theorem strToNat_natToStr (n : Nat) : strToNat (natToStr n) = n := by
  unfold natToStr
  by_cases h : n = 0
  · simp [h, strToNat, strToNatFrom]
  · simp only [h, if_false]
    rw [strToNat, strToNatFrom_natToStrAux n n 0 (Nat.le_refl n)]
    simp

theorem strToNatFrom_replicate_zero (k : Nat) :
    strToNatFrom 0 (List.replicate k '0') = 0 := by
  induction k with
  | zero => rfl
  | succ m ih =>
    rw [List.replicate_succ]
    show strToNatFrom (0 * 10 + ('0'.toNat - 48)) (List.replicate m '0') = 0
    simpa using ih

theorem strToNat_zfill (w : Nat) (s : Str) : strToNat (zfill w s) = strToNat s := by
  rw [zfill, strToNat, strToNatFrom_append, strToNatFrom_replicate_zero]
  rfl

theorem zfill_natToStr_injective (w : Nat) : Function.Injective
    (fun n : Nat => zfill w (natToStr n)) := by
  intro m n h
  have h1 : strToNat (zfill w (natToStr m)) = strToNat (zfill w (natToStr n)) :=
    congrArg strToNat h
  rwa [strToNat_zfill, strToNat_zfill, strToNat_natToStr, strToNat_natToStr] at h1

/-! ### Lemmas about `splitOnChar` -/

theorem splitOnChar_ne_nil (sep : Char) (l : Str) : splitOnChar sep l ≠ [] := by
  cases l with
  | nil => simp [splitOnChar]
  | cons c rest =>
    rw [splitOnChar]
    rcases h : splitOnChar sep rest with _ | ⟨h', t⟩
    · simp
    · by_cases hc : c = sep <;> simp [hc]

theorem splitOnChar_headD (sep : Char) (l : Str) :
    (splitOnChar sep l).headD [] = l.takeWhile (fun c => c ≠ sep) := by
  induction l with
  | nil => simp [splitOnChar]
  | cons c rest ih =>
    rw [splitOnChar]
    rcases h : splitOnChar sep rest with _ | ⟨h', t⟩
    · exact absurd h (splitOnChar_ne_nil sep rest)
    · by_cases hc : c = sep
      · simp [hc, List.takeWhile]
      · rw [h] at ih
        simp only [List.headD] at ih
        simp [hc, List.takeWhile, ih]

theorem splitOnChar_sep_not_mem (sep : Char) (l : Str) :
    ∀ x ∈ splitOnChar sep l, sep ∉ x := by
  induction l with
  | nil => simp [splitOnChar]
  | cons c rest ih =>
    rw [splitOnChar]
    rcases h : splitOnChar sep rest with _ | ⟨h', t⟩
    · exact absurd h (splitOnChar_ne_nil sep rest)
    · rw [h] at ih
      by_cases hc : c = sep
      · simp only [hc, if_pos rfl]
        intro x hx
        rcases List.mem_cons.mp hx with hx | hx
        · simp [hx]
        · exact ih x hx
      · simp only [if_neg hc]
        intro x hx
        rcases List.mem_cons.mp hx with hx | hx
        · subst hx
          intro hmem
          rcases List.mem_cons.mp hmem with hmem | hmem
          · exact hc hmem.symm
          · exact ih h' (by simp) hmem
        · exact ih x (by simp [hx])

theorem splitOnChar_mem_subset (sep : Char) (l : Str) :
    ∀ x ∈ splitOnChar sep l, ∀ c ∈ x, c ∈ l := by
  induction l with
  | nil => simp [splitOnChar]
  | cons c rest ih =>
    rw [splitOnChar]
    rcases h : splitOnChar sep rest with _ | ⟨h', t⟩
    · exact absurd h (splitOnChar_ne_nil sep rest)
    · rw [h] at ih
      by_cases hc : c = sep
      · simp only [hc, if_pos rfl]
        intro x hx d hd
        rcases List.mem_cons.mp hx with hx | hx
        · simp [hx] at hd
        · exact List.mem_cons_of_mem _ (ih x hx d hd)
      · simp only [if_neg hc]
        intro x hx d hd
        rcases List.mem_cons.mp hx with hx | hx
        · subst hx
          rcases List.mem_cons.mp hd with hd | hd
          · simp [hd]
          · exact List.mem_cons_of_mem _ (ih h' (by simp) d hd)
        · exact List.mem_cons_of_mem _ (ih x (by simp [hx]) d hd)

theorem splitOnChar_eq_single (sep : Char) (l : Str) (x : Str)
    (h : splitOnChar sep l = [x]) : x = l ∧ sep ∉ l := by
  induction l generalizing x with
  | nil =>
    simp [splitOnChar] at h
    simp [h]
  | cons c rest ih =>
    rw [splitOnChar] at h
    rcases hs : splitOnChar sep rest with _ | ⟨h', t⟩
    · exact absurd hs (splitOnChar_ne_nil sep rest)
    · rw [hs] at h
      by_cases hc : c = sep
      · simp [hc] at h
      · simp only [if_neg hc] at h
        have h1 : x = c :: h' ∧ t = [] := by
          constructor
          · exact (List.cons_eq_cons.mp h).1.symm
          · exact (List.cons_eq_cons.mp h).2
        have h2 : splitOnChar sep rest = [h'] := by rw [hs, h1.2]
        have h3 := ih h' h2
        constructor
        · rw [h1.1, h3.1]
        · intro hmem
          rcases List.mem_cons.mp hmem with hmem | hmem
          · exact hc hmem.symm
          · exact h3.2 hmem

theorem splitOnChar_length_ge_two (sep : Char) (l : Str) (h : sep ∈ l) :
    2 ≤ (splitOnChar sep l).length := by
  induction l with
  | nil => simp at h
  | cons c rest ih =>
    rw [splitOnChar]
    rcases hs : splitOnChar sep rest with _ | ⟨h', t⟩
    · exact absurd hs (splitOnChar_ne_nil sep rest)
    · by_cases hc : c = sep
      · simp [hc]
      · simp only [if_neg hc, List.length_cons]
        rcases List.mem_cons.mp h with h | h
        · exact absurd h.symm hc
        · have h4 := ih h
          rw [hs] at h4
          simp at h4
          omega

theorem splitOnChar_of_not_mem (sep : Char) (v : Str) (h : sep ∉ v) :
    splitOnChar sep v = [v] := by
  induction v with
  | nil => simp [splitOnChar]
  | cons c rest ih =>
    rw [splitOnChar]
    have hc : ¬ c = sep := fun hh => h (by simp [hh])
    rw [ih (fun hh => h (List.mem_cons_of_mem _ hh))]
    simp [hc]

theorem getLastD_irrel {α : Type} (l : List α) (h : l ≠ []) (a b : α) :
    l.getLastD a = l.getLastD b := by
  rw [List.getLastD_eq_getLast?, List.getLastD_eq_getLast?, List.getLast?_eq_getLast l h]
  rfl

theorem splitOnChar_last_append (sep : Char) (u v : Str) :
    (splitOnChar sep (u ++ sep :: v)).getLastD [] =
      (splitOnChar sep v).getLastD [] := by
  induction u with
  | nil =>
    rw [List.nil_append, splitOnChar]
    rcases hs : splitOnChar sep v with _ | ⟨h', t⟩
    · exact absurd hs (splitOnChar_ne_nil sep v)
    · dsimp only
      rw [if_pos rfl]
      exact List.getLastD_cons _ _ _
  | cons c u' ih =>
    rw [List.cons_append, splitOnChar]
    rcases hs : splitOnChar sep (u' ++ sep :: v) with _ | ⟨h', t⟩
    · exact absurd hs (splitOnChar_ne_nil sep _)
    · by_cases hc : c = sep
      · subst hc
        dsimp only
        rw [if_pos rfl, List.getLastD_cons, ← hs, ih]
      · dsimp only
        simp only [if_neg hc]
        have hlen : 2 ≤ (splitOnChar sep (u' ++ sep :: v)).length :=
          splitOnChar_length_ge_two sep _ (by simp)
        rw [hs] at hlen
        simp only [List.length_cons] at hlen
        have ht : t ≠ [] := by
          intro hh
          rw [hh] at hlen
          simp at hlen
        rw [List.getLastD_cons]
        have h5 : (h' :: t).getLastD [] = t.getLastD h' := List.getLastD_cons _ _ _
        rw [← ih, hs, h5]
        exact (getLastD_irrel t ht _ _).symm

theorem splitOnChar_getLastD (sep : Char) (u v : Str) (hv : sep ∉ v) :
    (splitOnChar sep (u ++ sep :: v)).getLastD [] = v := by
  rw [splitOnChar_last_append, splitOnChar_of_not_mem sep v hv]
  rfl

/-! ### takeWhile / dropWhile over append -/

theorem takeWhile_append_of_all {α : Type} (p : α → Bool) (xs ys : List α)
    (h : ∀ x ∈ xs, p x = true) :
    (xs ++ ys).takeWhile p = xs ++ ys.takeWhile p := by
  induction xs with
  | nil => simp
  | cons a l ih =>
    rw [List.cons_append, List.takeWhile_cons_of_pos (h a (by simp))]
    rw [ih (fun x hx => h x (by simp [hx]))]
    rfl

theorem takeWhile_append_stop {α : Type} (p : α → Bool) (xs ys : List α)
    (h : ¬ ∀ x ∈ xs, p x = true) :
    (xs ++ ys).takeWhile p = xs.takeWhile p := by
  induction xs with
  | nil => exact absurd (by simp) h
  | cons a l ih =>
    by_cases ha : p a = true
    · rw [List.cons_append, List.takeWhile_cons_of_pos ha, List.takeWhile_cons_of_pos ha]
      have hl : ¬ ∀ x ∈ l, p x = true := by
        intro hall
        exact h (fun x hx => by
          rcases List.mem_cons.mp hx with hx | hx
          · rw [hx]; exact ha
          · exact hall x hx)
      rw [ih hl]
    · rw [List.cons_append, List.takeWhile_cons_of_neg ha, List.takeWhile_cons_of_neg ha]

theorem dropWhile_append_of_all {α : Type} (p : α → Bool) (xs ys : List α)
    (h : ∀ x ∈ xs, p x = true) :
    (xs ++ ys).dropWhile p = ys.dropWhile p := by
  induction xs with
  | nil => simp
  | cons a l ih =>
    rw [List.cons_append, List.dropWhile_cons_of_pos (h a (by simp))]
    exact ih (fun x hx => h x (by simp [hx]))

theorem dropWhile_append_stop {α : Type} (p : α → Bool) (xs ys : List α)
    (h : ¬ ∀ x ∈ xs, p x = true) :
    (xs ++ ys).dropWhile p = xs.dropWhile p ++ ys := by
  induction xs with
  | nil => exact absurd (by simp) h
  | cons a l ih =>
    by_cases ha : p a = true
    · rw [List.cons_append, List.dropWhile_cons_of_pos ha, List.dropWhile_cons_of_pos ha]
      have hl : ¬ ∀ x ∈ l, p x = true := by
        intro hall
        exact h (fun x hx => by
          rcases List.mem_cons.mp hx with hx | hx
          · rw [hx]; exact ha
          · exact hall x hx)
      exact ih hl
    · rw [List.cons_append, List.dropWhile_cons_of_neg ha, List.dropWhile_cons_of_neg ha]
      rfl

/-! ### basename / parentDir / pathJoin lemmas -/

theorem basename_no_slash (p : Str) : '/' ∉ basename p := by
  intro h
  rw [basename, List.mem_reverse] at h
  have := List.mem_takeWhile_imp h
  simp at this

theorem parentDir_append_basename (p : Str) : parentDir p ++ basename p = p := by
  rw [parentDir, basename, ← List.reverse_append, List.takeWhile_append_dropWhile,
    List.reverse_reverse]

theorem basename_of_no_slash (x : Str) (h : '/' ∉ x) : basename x = x := by
  rw [basename, List.takeWhile_eq_self_iff.mpr, List.reverse_reverse]
  intro c hc
  rw [List.mem_reverse] at hc
  simp
  intro hcc
  exact h (hcc ▸ hc)

theorem parentDir_of_no_slash (x : Str) (h : '/' ∉ x) : parentDir x = [] := by
  rw [parentDir, List.dropWhile_eq_nil_iff.mpr, List.reverse_nil]
  intro c hc
  rw [List.mem_reverse] at hc
  simp
  intro hcc
  exact h (hcc ▸ hc)

theorem parentDir_getLast (p : Str) :
    parentDir p = [] ∨ (parentDir p).getLast? = some '/' := by
  rw [parentDir]
  rcases h : (p.reverse).dropWhile (fun c => c ≠ '/') with _ | ⟨c, t⟩
  · left; simp
  · right
    have hc : (fun c => decide ¬ c = '/') c = false := by
      have := List.head?_dropWhile_not (fun c => decide ¬ c = '/') p.reverse
      rw [h] at this
      simpa using this
    have hc' : c = '/' := by simpa using hc
    rw [List.getLast?_reverse]
    simp [hc']

theorem basename_append_no_slash (x y : Str) (h : '/' ∉ y) :
    basename (x ++ y) = basename x ++ y := by
  rw [basename, List.reverse_append,
    takeWhile_append_of_all _ _ _ (by
      intro c hc
      rw [List.mem_reverse] at hc
      simp
      intro hcc
      exact h (hcc ▸ hc)),
    List.reverse_append, List.reverse_reverse]
  rfl

theorem basename_append_slash_last (x y : Str) (hx : x ≠ [])
    (hlast : x.getLast? = some '/') : basename (x ++ y) = basename y := by
  have hrev : x.reverse.head? = some '/' := by rw [List.head?_reverse]; exact hlast
  rcases hr : x.reverse with _ | ⟨c, t⟩
  · exact absurd (by simpa using congrArg List.reverse hr) hx
  · have hc : c = '/' := by rw [hr] at hrev; simpa using hrev
    by_cases hall : ∀ d ∈ y.reverse, (fun d => decide ¬ d = '/') d = true
    · rw [basename, List.reverse_append, takeWhile_append_of_all _ _ _ hall, hr, hc,
        List.takeWhile_cons_of_neg (by simp)]
      rw [List.append_nil, basename, List.takeWhile_eq_self_iff.mpr hall, List.reverse_reverse]
    · rw [basename, List.reverse_append, takeWhile_append_stop _ _ _ hall, basename]

theorem basename_pathJoin (a b : Str) : basename (pathJoin a b) = basename b := by
  rw [pathJoin]
  by_cases h1 : b.head? = some '/'
  · rw [if_pos h1]
  · rw [if_neg h1]
    by_cases h2 : a = []
    · rw [if_pos h2]
    · rw [if_neg h2]
      by_cases h3 : a.getLast? = some '/'
      · rw [if_pos h3]
        exact basename_append_slash_last a b h2 h3
      · rw [if_neg h3]
        have : a ++ '/' :: b = (a ++ ['/']) ++ b := by simp
        rw [this]
        exact basename_append_slash_last _ b (by simp) (List.getLast?_concat a)

theorem parentDir_append_slash_last (d nm : Str) (hd : d ≠ [])
    (hlast : d.getLast? = some '/') (hnm : '/' ∉ nm) :
    parentDir (d ++ nm) = d := by
  have hrev : d.reverse.head? = some '/' := by rw [List.head?_reverse]; exact hlast
  rcases hr : d.reverse with _ | ⟨c, t⟩
  · exact absurd (by simpa using congrArg List.reverse hr) hd
  · have hc : c = '/' := by rw [hr] at hrev; simpa using hrev
    rw [parentDir, List.reverse_append,
      dropWhile_append_of_all _ _ _ (by
        intro x hx
        rw [List.mem_reverse] at hx
        simp
        intro hxx
        exact hnm (hxx ▸ hx)),
      hr, hc, List.dropWhile_cons_of_neg (by simp), ← hc, ← hr, List.reverse_reverse]

/-! ### The derived extension of a path -/

/-- The extension of a path as the planner derives it: the base name
split on '.', last segment (the whole base name when it has no dot,
matching `fn[-1]` on line 912). -/
def extOf (p : Str) : Str := (splitOnChar '.' (basename p)).getLastD []

theorem getLastD_mem {α : Type} (l : List α) (d : α) (h : l ≠ []) :
    l.getLastD d ∈ l := by
  rw [List.getLastD_eq_getLast?, List.getLast?_eq_getLast l h]
  exact List.getLast_mem h

theorem exists_last_sep (sep : Char) (l : Str) (h : sep ∈ l) :
    ∃ u v, l = u ++ sep :: v ∧ sep ∉ v := by
  induction l with
  | nil => simp at h
  | cons c rest ih =>
    by_cases hr : sep ∈ rest
    · obtain ⟨u, v, huv, hv⟩ := ih hr
      exact ⟨c :: u, v, by rw [huv]; rfl, hv⟩
    · have hc : c = sep := by
        rcases List.mem_cons.mp h with h | h
        · exact h.symm
        · exact absurd h hr
      exact ⟨[], rest, by rw [hc]; rfl, hr⟩

theorem splitOnChar_getLastD_eq (sep : Char) (l : Str) :
    (splitOnChar sep l).getLastD [] =
      ((l.reverse).takeWhile (fun c => c ≠ sep)).reverse := by
  by_cases h : sep ∈ l
  · obtain ⟨u, v, huv, hv⟩ := exists_last_sep sep l h
    subst huv
    rw [splitOnChar_getLastD sep u v hv]
    have hrw : (u ++ sep :: v).reverse = v.reverse ++ sep :: u.reverse := by simp
    rw [hrw, takeWhile_append_of_all _ _ _ (by
      intro c hc
      rw [List.mem_reverse] at hc
      simp
      intro hcc
      exact hv (hcc ▸ hc)),
      List.takeWhile_cons_of_neg (by simp)]
    simp
  · rw [splitOnChar_of_not_mem sep l h]
    have : (l.reverse).takeWhile (fun c => c ≠ sep) = l.reverse := by
      rw [List.takeWhile_eq_self_iff]
      intro c hc
      rw [List.mem_reverse] at hc
      simp
      intro hcc
      exact h (hcc ▸ hc)
    rw [this, List.reverse_reverse]
    rfl

/-! ### Membership in the plan -/

theorem planLoop_mem (f fm ts : Str) (w : Nat) :
    ∀ (l : List Str) (idx incN : Nat) (prev : Str) (e : EntryResult),
      e ∈ (planLoop f fm ts w idx incN prev l).1 →
      ∃ i n pr fp, fp ∈ l ∧ e = (processEntry f fm ts w i n pr fp).1 := by
  intro l
  induction l with
  | nil =>
    intro idx incN prev e he
    simp [planLoop] at he
  | cons fp rest ih =>
    intro idx incN prev e he
    simp only [planLoop] at he
    rcases List.mem_cons.mp he with he | he
    · exact ⟨idx, incN, prev, fp, by simp, he⟩
    · obtain ⟨i, n, pr, fp', hmem, heq⟩ := ih _ _ _ e he
      exact ⟨i, n, pr, fp', List.mem_cons_of_mem _ hmem, heq⟩

theorem computePlan_mem (fileList : List Str) (newForm folder2move tsStr : Str)
    (e : EntryResult) (he : e ∈ (computePlan fileList newForm folder2move tsStr).1) :
    ∃ i n pr fp, fp ∈ fileList ∧
      e = (processEntry newForm folder2move tsStr
        ((natToStr fileList.length).length) i n pr fp).1 := by
  rw [computePlan] at he
  exact planLoop_mem _ _ _ _ fileList 0 1 [] e he

/-! ### The derived extension never changes (claim C2) -/

theorem ext_pathJoin_append (X newFN oFExt : Str) (h1 : '/' ∉ oFExt)
    (h2 : '.' ∉ oFExt) :
    extOf (pathJoin X (newFN ++ '.' :: oFExt)) = oFExt := by
  rw [extOf, basename_pathJoin,
    basename_append_no_slash newFN ('.' :: oFExt) (by
      intro hmem
      rcases List.mem_cons.mp hmem with hmem | hmem
      · exact absurd hmem.symm (by decide)
      · exact h1 hmem)]
  exact splitOnChar_getLastD '.' (basename newFN) oFExt h2

theorem processEntry_ext (f fm ts : Str) (w i n : Nat) (pr fp : Str) :
    extOf ((processEntry f fm ts w i n pr fp).1.newFP) = extOf fp := by
  have hne : splitOnChar '.' (basename fp) ≠ [] := splitOnChar_ne_nil '.' (basename fp)
  have hmem : (splitOnChar '.' (basename fp)).getLastD [] ∈ splitOnChar '.' (basename fp) :=
    getLastD_mem _ _ hne
  have h2 : '.' ∉ (splitOnChar '.' (basename fp)).getLastD [] :=
    splitOnChar_sep_not_mem '.' (basename fp) _ hmem
  have h1 : '/' ∉ (splitOnChar '.' (basename fp)).getLastD [] := by
    intro hsl
    exact basename_no_slash fp (splitOnChar_mem_subset '.' (basename fp) _ hmem '/' hsl)
  show extOf (if fm ≠ [] then _ else _) = extOf fp
  by_cases hfm : fm ≠ []
  · rw [if_pos hfm]
    exact (ext_pathJoin_append _ _ _ h1 h2).trans rfl
  · rw [if_neg hfm]
    exact (ext_pathJoin_append _ _ _ h1 h2).trans rfl

/-- C2: for every matched source file and every rename template (and any
destination override and timestamp), the derived extension of the computed
destination path equals the derived extension of the source path, where
the derived extension of a path is the segment after the last '.' of its
base name (the whole base name when it has no dot), exactly as the code
derives it on line 912 and appends it on lines 941/943. -/
theorem c2_extension_preserved (fileList : List Str) (newForm folder2move tsStr : Str)
    (e : EntryResult) (he : e ∈ (computePlan fileList newForm folder2move tsStr).1) :
    extOf e.newFP = extOf e.fp := by
  obtain ⟨i, n, pr, fp, hmem, heq⟩ := computePlan_mem fileList newForm folder2move tsStr e he
  subst heq
  exact processEntry_ext _ _ _ _ _ _ _ fp

def dummyEntry : EntryResult := ⟨[], [], [], [], [], [], [], []⟩

/-- Witness for C2 at a concrete input. -/
theorem c2_extension_preserved_witness :
    extOf (((computePlan [strL "/a/x.txt"] (strL "[oFileN]") [] []).1.headD dummyEntry).newFP) =
      extOf (((computePlan [strL "/a/x.txt"] (strL "[oFileN]") [] []).1.headD dummyEntry).fp) :=
  c2_extension_preserved [strL "/a/x.txt"] (strL "[oFileN]") [] [] _ (by decide)

/-- C5: for every matched file whose base name contains more than one '.'
character, the derived original base name `fn[0]` is everything before the
first '.', and the derived extension `fn[-1]` is the substring after the
last '.' (middle segments are dropped); pyFileRen.py lines 911-912. -/
theorem c5_multidot_split (fileList : List Str) (newForm folder2move tsStr : Str)
    (e : EntryResult) (he : e ∈ (computePlan fileList newForm folder2move tsStr).1)
    (hdots : 2 ≤ (basename e.fp).count '.') :
    e.oFN = (basename e.fp).takeWhile (fun c => c ≠ '.') ∧
      e.oFExt = (((basename e.fp).reverse).takeWhile (fun c => c ≠ '.')).reverse := by
  obtain ⟨i, n, pr, fp, hmem, heq⟩ := computePlan_mem fileList newForm folder2move tsStr e he
  subst heq
  constructor
  · exact splitOnChar_headD '.' (basename fp)
  · exact splitOnChar_getLastD_eq '.' (basename fp)

/-- Witness for C5 at a concrete input: a file named a.b.txt yields base
a and extension txt. -/
theorem c5_multidot_split_witness :
    (2 ≤ (basename ((computePlan [strL "/p/a.b.txt"] (strL "[oFileN]") [] []).1.headD
        dummyEntry).fp).count '.') ∧
      ((computePlan [strL "/p/a.b.txt"] (strL "[oFileN]") [] []).1.headD dummyEntry).oFN =
        strL "a" ∧
      ((computePlan [strL "/p/a.b.txt"] (strL "[oFileN]") [] []).1.headD dummyEntry).oFExt =
        strL "txt" := by
  refine ⟨by decide, ?_, ?_⟩
  · have h := (c5_multidot_split [strL "/p/a.b.txt"] (strL "[oFileN]") [] []
      ((computePlan [strL "/p/a.b.txt"] (strL "[oFileN]") [] []).1.headD dummyEntry)
      (by decide) (by decide)).1
    rw [h]
    decide
  · have h := (c5_multidot_split [strL "/p/a.b.txt"] (strL "[oFileN]") [] []
      ((computePlan [strL "/p/a.b.txt"] (strL "[oFileN]") [] []).1.headD dummyEntry)
      (by decide) (by decide)).2
    rw [h]
    decide

/-! ### The destination folder (claim C3) -/

theorem replaceCore_nil (p : Char) (ps rep : Str) (fuel : Nat) :
    replaceCore p ps rep fuel [] = [] := by
  cases fuel <;> rfl

theorem getLast?_mem {α : Type} (l : List α) (a : α) (h : l.getLast? = some a) :
    a ∈ l := by
  rcases l with _ | ⟨x, xs⟩
  · simp at h
  · rw [List.getLast?_eq_getLast (x :: xs) (by simp)] at h
    have := List.getLast_mem (l := x :: xs) (by simp)
    rwa [Option.some_inj.mp h] at this

theorem hasSub_of_isPrefixOf (s bn : Str) (h : bn.isPrefixOf s = true) :
    hasSub s bn = true := by
  cases s with
  | nil =>
    rw [hasSub]
    cases bn with
    | nil => rfl
    | cons b bs => simp [List.isPrefixOf] at h
  | cons c rest =>
    rw [hasSub]
    simp [h]

theorem getLast?_cons_of_ne_nil {α : Type} (c : α) (l : List α) (h : l ≠ []) :
    (c :: l).getLast? = l.getLast? := by
  rcases l with _ | ⟨x, xs⟩
  · exact absurd rfl h
  · rfl

theorem head?_mem {α : Type} (l : List α) (a : α) (h : l.head? = some a) : a ∈ l := by
  rcases l with _ | ⟨x, xs⟩
  · simp at h
  · simp at h
    simp [h]

theorem replaceCore_strip (p : Char) (ps : Str) (hslash : '/' ∉ p :: ps) :
    ∀ (d : Str) (fuel : Nat), (d ++ p :: ps).length ≤ fuel →
      (d = [] ∨ d.getLast? = some '/') → hasSub d (p :: ps) = false →
      replaceCore p ps [] fuel (d ++ p :: ps) = d := by
  intro d
  induction d with
  | nil =>
    intro fuel hfuel _ _
    rcases fuel with _ | f
    · simp at hfuel
    · rw [List.nil_append, replaceCore,
        if_pos (List.isPrefixOf_iff_prefix.mpr (List.prefix_refl _)),
        List.drop_length, replaceCore_nil]
      rfl
  | cons c d' ih =>
    intro fuel hfuel hlast hsub
    rcases fuel with _ | f
    · simp at hfuel
    · have hlast' : (c :: d').getLast? = some '/' := by
        rcases hlast with hlast | hlast
        · exact absurd hlast (by simp)
        · exact hlast
      have hnp : ¬ (p :: ps).isPrefixOf ((c :: d') ++ p :: ps) = true := by
        intro hp
        have hpre : (p :: ps) <+: ((c :: d') ++ p :: ps) := by
          rw [← List.isPrefixOf_iff_prefix]
          exact hp
        by_cases hlen : (p :: ps).length ≤ (c :: d').length
        · have htake : (p :: ps) = ((c :: d') ++ p :: ps).take (p :: ps).length :=
            List.prefix_iff_eq_take.mp hpre
          rw [List.take_append_of_le_length hlen] at htake
          have hsub2 : (p :: ps) <+: (c :: d') := htake ▸ List.take_prefix _ _
          have hcontra : hasSub (c :: d') (p :: ps) = true :=
            hasSub_of_isPrefixOf _ _ (List.isPrefixOf_iff_prefix.mpr hsub2)
          rw [hcontra] at hsub
          simp at hsub
        · have hlt : (c :: d').length < (p :: ps).length := by omega
          have htake : (p :: ps) = ((c :: d') ++ p :: ps).take (p :: ps).length :=
            List.prefix_iff_eq_take.mp hpre
          have hsplit : (p :: ps).length = (c :: d').length +
              ((p :: ps).length - (c :: d').length) := by omega
          rw [hsplit, List.take_append] at htake
          have hpre2 : (c :: d') <+: (p :: ps) := ⟨_, htake.symm⟩
          have hmem : '/' ∈ (c :: d') := getLast?_mem _ _ hlast'
          exact hslash (hpre2.subset hmem)
      have hnp2 : ¬ (p :: ps).isPrefixOf (c :: (d' ++ p :: ps)) = true := by
        rw [← List.cons_append]
        exact hnp
      rw [List.cons_append, replaceCore, if_neg hnp2]
      have hsub' : hasSub d' (p :: ps) = false := by
        rw [hasSub] at hsub
        simp only [Bool.or_eq_false_iff] at hsub
        exact hsub.2
      have hlast'' : d' = [] ∨ d'.getLast? = some '/' := by
        rcases d' with _ | ⟨x, xs⟩
        · exact Or.inl rfl
        · right
          rw [← getLast?_cons_of_ne_nil c (x :: xs) (by simp)]
          exact hlast'
      rw [ih f (by simp at hfuel ⊢; omega) hlast'' hsub']

theorem replace_strip_suffix (bn d : Str) (hbn : bn ≠ []) (hslash : '/' ∉ bn)
    (hlast : d = [] ∨ d.getLast? = some '/') (hsub : hasSub d bn = false) :
    replaceL (d ++ bn) bn [] = d := by
  rcases bn with _ | ⟨p, ps⟩
  · exact absurd rfl hbn
  · rw [replaceL]
    exact replaceCore_strip p ps hslash d _ (Nat.le_refl _) hlast hsub

theorem folderPath_eq_parentDir (fp : Str) (hbn : basename fp ≠ [])
    (hsub : hasSub (parentDir fp) (basename fp) = false) :
    replaceL fp (basename fp) [] = parentDir fp := by
  have h := replace_strip_suffix (basename fp) (parentDir fp) hbn (basename_no_slash fp)
    (parentDir_getLast fp) hsub
  calc replaceL fp (basename fp) []
      = replaceL (parentDir fp ++ basename fp) (basename fp) [] := by
        rw [parentDir_append_basename]
    _ = parentDir fp := h

theorem processEntry_parentDir (f ts : Str) (w i n : Nat) (pr fp : Str)
    (hbn : basename fp ≠ [])
    (hsub : hasSub (parentDir fp) (basename fp) = false)
    (hN : '/' ∉ (processEntry f [] ts w i n pr fp).1.newFN) :
    parentDir ((processEntry f [] ts w i n pr fp).1.newFP) = parentDir fp := by
  have hfold : replaceL fp (basename fp) [] = parentDir fp :=
    folderPath_eq_parentDir fp hbn hsub
  have hext : '/' ∉ (splitOnChar '.' (basename fp)).getLastD [] := by
    intro hsl
    have hne : splitOnChar '.' (basename fp) ≠ [] := splitOnChar_ne_nil '.' (basename fp)
    exact basename_no_slash fp
      (splitOnChar_mem_subset '.' (basename fp) _ (getLastD_mem _ _ hne) '/' hsl)
  have hnm : '/' ∉ (processEntry f [] ts w i n pr fp).1.newFN ++
      '.' :: (splitOnChar '.' (basename fp)).getLastD [] := by
    intro hmem
    rcases List.mem_append.mp hmem with hmem | hmem
    · exact hN hmem
    · rcases List.mem_cons.mp hmem with hmem | hmem
      · exact absurd hmem.symm (by decide)
      · exact hext hmem
  have hunfold : (processEntry f [] ts w i n pr fp).1.newFP =
      pathJoin (replaceL fp (basename fp) [])
        ((processEntry f [] ts w i n pr fp).1.newFN ++
          '.' :: (splitOnChar '.' (basename fp)).getLastD []) := rfl
  rw [hunfold, hfold]
  have hhead : ¬ ((processEntry f [] ts w i n pr fp).1.newFN ++
      '.' :: (splitOnChar '.' (basename fp)).getLastD []).head? = some '/' := by
    intro hh
    exact hnm (head?_mem _ _ hh)
  rcases parentDir_getLast fp with hpd | hpd
  · rw [hpd, pathJoin, if_neg hhead, if_pos rfl]
    exact parentDir_of_no_slash _ hnm
  · have hdne : parentDir fp ≠ [] := by
      intro hh
      rw [hh] at hpd
      simp at hpd
    rw [pathJoin, if_neg hhead, if_neg hdne, if_pos hpd]
    exact parentDir_append_slash_last _ _ hdne hpd hnm

/-- C3 as stated is false on the code: with the destination override
unset, for the source file /tmp/a.txt/a.txt (a file a.txt inside a folder
itself named a.txt), `folderPath = fp.replace(bn, "")` (line 909) removes
both occurrences of the base name, so the planned destination is
/tmp//a.txt, whose containing folder is /tmp// (i.e. /tmp), not the
entry's original containing folder /tmp/a.txt/. -/
theorem c3_counterexample :
    parentDir (((computePlan [strL "/tmp/a.txt/a.txt"] (strL "[oFileN]") [] []).1.headD
        dummyEntry).newFP) ≠
      parentDir (((computePlan [strL "/tmp/a.txt/a.txt"] (strL "[oFileN]") [] []).1.headD
        dummyEntry).fp) ∧
    nFileListOf (computePlan [strL "/tmp/a.txt/a.txt"] (strL "[oFileN]") [] []).1 =
      [strL "/tmp//a.txt"] := by
  constructor
  · decide
  · decide

/-- C3 amended: when the destination override is unset, the destination
folder of a planned pair equals the entry's original containing folder,
provided the entry's base name is nonempty and occurs in the source path
only as its final component, and the expanded new name contains no '/'
character. -/
theorem c3_dest_folder_amended (fileList : List Str) (newForm tsStr : Str)
    (e : EntryResult) (he : e ∈ (computePlan fileList newForm [] tsStr).1)
    (hbn : basename e.fp ≠ [])
    (hocc : hasSub (parentDir e.fp) (basename e.fp) = false)
    (hslash : '/' ∉ e.newFN) :
    parentDir e.newFP = parentDir e.fp := by
  obtain ⟨i, n, pr, fp, hmem, heq⟩ := computePlan_mem fileList newForm [] tsStr e he
  subst heq
  exact processEntry_parentDir newForm tsStr _ i n pr fp hbn hocc hslash

/-- Witness for the amended C3 at a concrete input. -/
theorem c3_dest_folder_amended_witness :
    parentDir (((computePlan [strL "/tmp/x.txt"] (strL "[oFileN]") [] []).1.headD
        dummyEntry).newFP) =
      parentDir (((computePlan [strL "/tmp/x.txt"] (strL "[oFileN]") [] []).1.headD
        dummyEntry).fp) :=
  c3_dest_folder_amended [strL "/tmp/x.txt"] (strL "[oFileN]") []
    ((computePlan [strL "/tmp/x.txt"] (strL "[oFileN]") [] []).1.headD dummyEntry)
    (by decide) (by decide) (by decide) (by decide)

/-! ### Step equations for the token loop -/

theorem pt_nil {fP pP oFN ts : Str} {w : Nat} {s : Str} {n : Nat} :
    processTokens fP pP oFN ts w [] s n = (s, n, []) := rfl

theorem pt_skip {fP pP oFN ts : Str} {w : Nat} {k : FFOToken} {rest : List FFOToken}
    {s : Str} {n : Nat} (h : hasSub s (tokenStr k) = false) :
    processTokens fP pP oFN ts w (k :: rest) s n =
      ((processTokens fP pP oFN ts w rest s n).1,
        (processTokens fP pP oFN ts w rest s n).2.1,
        ⟨k, s, n, false, []⟩ :: (processTokens fP pP oFN ts w rest s n).2.2) := by
  rw [processTokens, if_neg (by simp [h])]

theorem pt_fire_oFileN {fP pP oFN ts : Str} {w : Nat} {rest : List FFOToken}
    {s : Str} {n : Nat} (h : hasSub s (tokenStr FFOToken.oFileN) = true) :
    processTokens fP pP oFN ts w (FFOToken.oFileN :: rest) s n =
      ((processTokens fP pP oFN ts w rest
          (replaceL s (tokenStr FFOToken.oFileN) oFN) n).1,
        (processTokens fP pP oFN ts w rest
          (replaceL s (tokenStr FFOToken.oFileN) oFN) n).2.1,
        ⟨FFOToken.oFileN, s, n, true, oFN⟩ ::
          (processTokens fP pP oFN ts w rest
            (replaceL s (tokenStr FFOToken.oFileN) oFN) n).2.2) := by
  rw [processTokens, if_pos h]
  simp [isIncTok]

theorem pt_fire_folderN {fP pP oFN ts : Str} {w : Nat} {rest : List FFOToken}
    {s : Str} {n : Nat} (h : hasSub s (tokenStr FFOToken.folderN) = true) :
    processTokens fP pP oFN ts w (FFOToken.folderN :: rest) s n =
      ((processTokens fP pP oFN ts w rest
          (replaceL s (tokenStr FFOToken.folderN) (folderNameOf fP)) n).1,
        (processTokens fP pP oFN ts w rest
          (replaceL s (tokenStr FFOToken.folderN) (folderNameOf fP)) n).2.1,
        ⟨FFOToken.folderN, s, n, true, folderNameOf fP⟩ ::
          (processTokens fP pP oFN ts w rest
            (replaceL s (tokenStr FFOToken.folderN) (folderNameOf fP)) n).2.2) := by
  rw [processTokens, if_pos h]
  simp [isIncTok]

theorem pt_fire_ts {fP pP oFN ts : Str} {w : Nat} {rest : List FFOToken}
    {s : Str} {n : Nat} (h : hasSub s (tokenStr FFOToken.ts) = true) :
    processTokens fP pP oFN ts w (FFOToken.ts :: rest) s n =
      ((processTokens fP pP oFN ts w rest
          (replaceL s (tokenStr FFOToken.ts) ts) n).1,
        (processTokens fP pP oFN ts w rest
          (replaceL s (tokenStr FFOToken.ts) ts) n).2.1,
        ⟨FFOToken.ts, s, n, true, ts⟩ ::
          (processTokens fP pP oFN ts w rest
            (replaceL s (tokenStr FFOToken.ts) ts) n).2.2) := by
  rw [processTokens, if_pos h]
  simp [isIncTok]

theorem pt_fire_incNum {fP pP oFN ts : Str} {w : Nat} {rest : List FFOToken}
    {s : Str} {n : Nat} (h : hasSub s (tokenStr FFOToken.incNum) = true) :
    processTokens fP pP oFN ts w (FFOToken.incNum :: rest) s n =
      ((processTokens fP pP oFN ts w rest
          (replaceL s (tokenStr FFOToken.incNum) (zfill w (natToStr n))) (n + 1)).1,
        (processTokens fP pP oFN ts w rest
          (replaceL s (tokenStr FFOToken.incNum) (zfill w (natToStr n))) (n + 1)).2.1,
        ⟨FFOToken.incNum, s, n, true, zfill w (natToStr n)⟩ ::
          (processTokens fP pP oFN ts w rest
            (replaceL s (tokenStr FFOToken.incNum) (zfill w (natToStr n))) (n + 1)).2.2) := by
  rw [processTokens, if_pos h]
  simp [isIncTok]

theorem pt_fire_incNumInFolder {fP pP oFN ts : Str} {w : Nat} {rest : List FFOToken}
    {s : Str} {n : Nat} (h : hasSub s (tokenStr FFOToken.incNumInFolder) = true) :
    processTokens fP pP oFN ts w (FFOToken.incNumInFolder :: rest) s n =
      ((processTokens fP pP oFN ts w rest
          (replaceL s (tokenStr FFOToken.incNumInFolder)
            (zfill w (natToStr (if fP ≠ pP then 1 else n))))
          ((if fP ≠ pP then 1 else n) + 1)).1,
        (processTokens fP pP oFN ts w rest
          (replaceL s (tokenStr FFOToken.incNumInFolder)
            (zfill w (natToStr (if fP ≠ pP then 1 else n))))
          ((if fP ≠ pP then 1 else n) + 1)).2.1,
        ⟨FFOToken.incNumInFolder, s, n, true,
            zfill w (natToStr (if fP ≠ pP then 1 else n))⟩ ::
          (processTokens fP pP oFN ts w rest
            (replaceL s (tokenStr FFOToken.incNumInFolder)
              (zfill w (natToStr (if fP ≠ pP then 1 else n))))
            ((if fP ≠ pP then 1 else n) + 1)).2.2) := by
  rw [processTokens, if_pos h]
  simp [isIncTok]

/-! ### Unconditional step equations (both branches merged) -/

theorem ptu_oFileN {fP pP oFN ts : Str} {w : Nat} {rest : List FFOToken}
    {s : Str} {n : Nat} :
    processTokens fP pP oFN ts w (FFOToken.oFileN :: rest) s n =
      ((processTokens fP pP oFN ts w rest
          (if hasSub s (tokenStr FFOToken.oFileN) then
            replaceL s (tokenStr FFOToken.oFileN) oFN else s) n).1,
        (processTokens fP pP oFN ts w rest
          (if hasSub s (tokenStr FFOToken.oFileN) then
            replaceL s (tokenStr FFOToken.oFileN) oFN else s) n).2.1,
        ⟨FFOToken.oFileN, s, n, hasSub s (tokenStr FFOToken.oFileN),
            if hasSub s (tokenStr FFOToken.oFileN) then oFN else []⟩ ::
          (processTokens fP pP oFN ts w rest
            (if hasSub s (tokenStr FFOToken.oFileN) then
              replaceL s (tokenStr FFOToken.oFileN) oFN else s) n).2.2) := by
  by_cases h : hasSub s (tokenStr FFOToken.oFileN) = true
  · rw [pt_fire_oFileN h]
    simp [h]
  · have h' : hasSub s (tokenStr FFOToken.oFileN) = false := by simpa using h
    rw [pt_skip h']
    simp [h']

theorem ptu_folderN {fP pP oFN ts : Str} {w : Nat} {rest : List FFOToken}
    {s : Str} {n : Nat} :
    processTokens fP pP oFN ts w (FFOToken.folderN :: rest) s n =
      ((processTokens fP pP oFN ts w rest
          (if hasSub s (tokenStr FFOToken.folderN) then
            replaceL s (tokenStr FFOToken.folderN) (folderNameOf fP) else s) n).1,
        (processTokens fP pP oFN ts w rest
          (if hasSub s (tokenStr FFOToken.folderN) then
            replaceL s (tokenStr FFOToken.folderN) (folderNameOf fP) else s) n).2.1,
        ⟨FFOToken.folderN, s, n, hasSub s (tokenStr FFOToken.folderN),
            if hasSub s (tokenStr FFOToken.folderN) then folderNameOf fP else []⟩ ::
          (processTokens fP pP oFN ts w rest
            (if hasSub s (tokenStr FFOToken.folderN) then
              replaceL s (tokenStr FFOToken.folderN) (folderNameOf fP) else s) n).2.2) := by
  by_cases h : hasSub s (tokenStr FFOToken.folderN) = true
  · rw [pt_fire_folderN h]
    simp [h]
  · have h' : hasSub s (tokenStr FFOToken.folderN) = false := by simpa using h
    rw [pt_skip h']
    simp [h']

theorem ptu_ts {fP pP oFN ts : Str} {w : Nat} {rest : List FFOToken}
    {s : Str} {n : Nat} :
    processTokens fP pP oFN ts w (FFOToken.ts :: rest) s n =
      ((processTokens fP pP oFN ts w rest
          (if hasSub s (tokenStr FFOToken.ts) then
            replaceL s (tokenStr FFOToken.ts) ts else s) n).1,
        (processTokens fP pP oFN ts w rest
          (if hasSub s (tokenStr FFOToken.ts) then
            replaceL s (tokenStr FFOToken.ts) ts else s) n).2.1,
        ⟨FFOToken.ts, s, n, hasSub s (tokenStr FFOToken.ts),
            if hasSub s (tokenStr FFOToken.ts) then ts else []⟩ ::
          (processTokens fP pP oFN ts w rest
            (if hasSub s (tokenStr FFOToken.ts) then
              replaceL s (tokenStr FFOToken.ts) ts else s) n).2.2) := by
  by_cases h : hasSub s (tokenStr FFOToken.ts) = true
  · rw [pt_fire_ts h]
    simp [h]
  · have h' : hasSub s (tokenStr FFOToken.ts) = false := by simpa using h
    rw [pt_skip h']
    simp [h']

theorem ptu_incNum {fP pP oFN ts : Str} {w : Nat} {rest : List FFOToken}
    {s : Str} {n : Nat} :
    processTokens fP pP oFN ts w (FFOToken.incNum :: rest) s n =
      ((processTokens fP pP oFN ts w rest
          (if hasSub s (tokenStr FFOToken.incNum) then
            replaceL s (tokenStr FFOToken.incNum) (zfill w (natToStr n)) else s)
          (if hasSub s (tokenStr FFOToken.incNum) then n + 1 else n)).1,
        (processTokens fP pP oFN ts w rest
          (if hasSub s (tokenStr FFOToken.incNum) then
            replaceL s (tokenStr FFOToken.incNum) (zfill w (natToStr n)) else s)
          (if hasSub s (tokenStr FFOToken.incNum) then n + 1 else n)).2.1,
        ⟨FFOToken.incNum, s, n, hasSub s (tokenStr FFOToken.incNum),
            if hasSub s (tokenStr FFOToken.incNum) then zfill w (natToStr n) else []⟩ ::
          (processTokens fP pP oFN ts w rest
            (if hasSub s (tokenStr FFOToken.incNum) then
              replaceL s (tokenStr FFOToken.incNum) (zfill w (natToStr n)) else s)
            (if hasSub s (tokenStr FFOToken.incNum) then n + 1 else n)).2.2) := by
  by_cases h : hasSub s (tokenStr FFOToken.incNum) = true
  · rw [pt_fire_incNum h]
    simp [h]
  · have h' : hasSub s (tokenStr FFOToken.incNum) = false := by simpa using h
    rw [pt_skip h']
    simp [h']

theorem ptu_incNumInFolder {fP pP oFN ts : Str} {w : Nat} {rest : List FFOToken}
    {s : Str} {n : Nat} :
    processTokens fP pP oFN ts w (FFOToken.incNumInFolder :: rest) s n =
      ((processTokens fP pP oFN ts w rest
          (if hasSub s (tokenStr FFOToken.incNumInFolder) then
            replaceL s (tokenStr FFOToken.incNumInFolder)
              (zfill w (natToStr (if fP ≠ pP then 1 else n))) else s)
          (if hasSub s (tokenStr FFOToken.incNumInFolder) then
            (if fP ≠ pP then 1 else n) + 1 else n)).1,
        (processTokens fP pP oFN ts w rest
          (if hasSub s (tokenStr FFOToken.incNumInFolder) then
            replaceL s (tokenStr FFOToken.incNumInFolder)
              (zfill w (natToStr (if fP ≠ pP then 1 else n))) else s)
          (if hasSub s (tokenStr FFOToken.incNumInFolder) then
            (if fP ≠ pP then 1 else n) + 1 else n)).2.1,
        ⟨FFOToken.incNumInFolder, s, n, hasSub s (tokenStr FFOToken.incNumInFolder),
            if hasSub s (tokenStr FFOToken.incNumInFolder) then
              zfill w (natToStr (if fP ≠ pP then 1 else n)) else []⟩ ::
          (processTokens fP pP oFN ts w rest
            (if hasSub s (tokenStr FFOToken.incNumInFolder) then
              replaceL s (tokenStr FFOToken.incNumInFolder)
                (zfill w (natToStr (if fP ≠ pP then 1 else n))) else s)
            (if hasSub s (tokenStr FFOToken.incNumInFolder) then
              (if fP ≠ pP then 1 else n) + 1 else n)).2.2) := by
  by_cases h : hasSub s (tokenStr FFOToken.incNumInFolder) = true
  · rw [pt_fire_incNumInFolder h]
    simp [h]
  · have h' : hasSub s (tokenStr FFOToken.incNumInFolder) = false := by simpa using h
    rw [pt_skip h']
    simp [h']

/-! ### One full run of the token loop: counter and trace facts -/

theorem run_incNum (fP pP oFN ts form : Str) (w n : Nat)
    (h1 : (processTokens fP pP oFN ts w newFFO form n).2.2.any
        (fun st => decide (st.token = FFOToken.incNum) && st.fired) = true)
    (h2 : (processTokens fP pP oFN ts w newFFO form n).2.2.any
        (fun st => decide (st.token = FFOToken.incNumInFolder) && st.fired) = false) :
    (processTokens fP pP oFN ts w newFFO form n).2.1 = n + 1 ∧
      ((processTokens fP pP oFN ts w newFFO form n).2.2.filter
          (fun st => decide (st.token = FFOToken.incNum) && st.fired)).map TokStep.rStr =
        [zfill w (natToStr n)] := by
  rw [show newFFO = [FFOToken.oFileN, FFOToken.folderN, FFOToken.incNum,
      FFOToken.incNumInFolder, FFOToken.ts] from rfl] at h1 h2 ⊢
  simp only [ptu_oFileN, ptu_folderN, ptu_incNum, ptu_incNumInFolder, ptu_ts, pt_nil]
    at h1 h2 ⊢
  simp at h1 h2
  simp [h1] at h2 ⊢
  simp [h2]

theorem run_incNumInFolder (fP pP oFN ts form : Str) (w n : Nat)
    (h1 : (processTokens fP pP oFN ts w newFFO form n).2.2.any
        (fun st => decide (st.token = FFOToken.incNum) && st.fired) = false)
    (h2 : (processTokens fP pP oFN ts w newFFO form n).2.2.any
        (fun st => decide (st.token = FFOToken.incNumInFolder) && st.fired) = true) :
    (processTokens fP pP oFN ts w newFFO form n).2.1 =
        (if fP ≠ pP then 1 else n) + 1 ∧
      ((processTokens fP pP oFN ts w newFFO form n).2.2.filter
          (fun st => decide (st.token = FFOToken.incNumInFolder) && st.fired)).map
          TokStep.rStr =
        [zfill w (natToStr (if fP ≠ pP then 1 else n))] := by
  rw [show newFFO = [FFOToken.oFileN, FFOToken.folderN, FFOToken.incNum,
      FFOToken.incNumInFolder, FFOToken.ts] from rfl] at h1 h2 ⊢
  simp only [ptu_oFileN, ptu_folderN, ptu_incNum, ptu_incNumInFolder, ptu_ts, pt_nil]
    at h1 h2 ⊢
  simp at h1 h2
  simp [h1] at h2 ⊢
  simp [h2]

theorem run_noInc (fP pP oFN ts form : Str) (w n : Nat)
    (h1 : (processTokens fP pP oFN ts w newFFO form n).2.2.any
        (fun st => decide (st.token = FFOToken.incNum) && st.fired) = false)
    (h2 : (processTokens fP pP oFN ts w newFFO form n).2.2.any
        (fun st => decide (st.token = FFOToken.incNumInFolder) && st.fired) = false) :
    (processTokens fP pP oFN ts w newFFO form n).2.1 = n ∧
      ((processTokens fP pP oFN ts w newFFO form n).2.2.filter
          (fun st => decide (st.token = FFOToken.incNum) && st.fired)).map TokStep.rStr =
        [] ∧
      ((processTokens fP pP oFN ts w newFFO form n).2.2.filter
          (fun st => decide (st.token = FFOToken.incNumInFolder) && st.fired)).map
          TokStep.rStr = [] := by
  rw [show newFFO = [FFOToken.oFileN, FFOToken.folderN, FFOToken.incNum,
      FFOToken.incNumInFolder, FFOToken.ts] from rfl] at h1 h2 ⊢
  simp only [ptu_oFileN, ptu_folderN, ptu_incNum, ptu_incNumInFolder, ptu_ts, pt_nil]
    at h1 h2 ⊢
  simp at h1 h2
  simp [h1] at h2 ⊢
  simp [h2]

/-! ### Per-entry counter facts -/

theorem tokenValues_singleton (e : EntryResult) (k : FFOToken) :
    tokenValues [e] k =
      (e.steps.filter (fun st => decide (st.token = k) && st.fired)).map TokStep.rStr := by
  simp [tokenValues]

theorem entry_incNum (f fm ts : Str) (w i n : Nat) (pr fp : Str)
    (h1 : firedAt (processEntry f fm ts w i n pr fp).1 FFOToken.incNum = true)
    (h2 : firedAt (processEntry f fm ts w i n pr fp).1 FFOToken.incNumInFolder = false) :
    (processEntry f fm ts w i n pr fp).2.1 = n + 1 ∧
      tokenValues [(processEntry f fm ts w i n pr fp).1] FFOToken.incNum =
        [zfill w (natToStr n)] := by
  have hr := run_incNum (replaceL fp (basename fp) [])
    (if i = 0 then replaceL fp (basename fp) [] else pr)
    ((splitOnChar '.' (basename fp)).headD []) ts f w n h1 h2
  exact ⟨hr.1, (tokenValues_singleton _ _).trans hr.2⟩

theorem entry_incNumInFolder (f fm ts : Str) (w i n : Nat) (pr fp : Str)
    (h1 : firedAt (processEntry f fm ts w i n pr fp).1 FFOToken.incNum = false)
    (h2 : firedAt (processEntry f fm ts w i n pr fp).1 FFOToken.incNumInFolder = true) :
    (processEntry f fm ts w i n pr fp).2.1 =
        (if replaceL fp (basename fp) [] ≠
          (if i = 0 then replaceL fp (basename fp) [] else pr) then 1 else n) + 1 ∧
      tokenValues [(processEntry f fm ts w i n pr fp).1] FFOToken.incNumInFolder =
        [zfill w (natToStr (if replaceL fp (basename fp) [] ≠
          (if i = 0 then replaceL fp (basename fp) [] else pr) then 1 else n))] := by
  have hr := run_incNumInFolder (replaceL fp (basename fp) [])
    (if i = 0 then replaceL fp (basename fp) [] else pr)
    ((splitOnChar '.' (basename fp)).headD []) ts f w n h1 h2
  exact ⟨hr.1, (tokenValues_singleton _ _).trans hr.2⟩

theorem entry_noInc (f fm ts : Str) (w i n : Nat) (pr fp : Str)
    (h1 : firedAt (processEntry f fm ts w i n pr fp).1 FFOToken.incNum = false)
    (h2 : firedAt (processEntry f fm ts w i n pr fp).1 FFOToken.incNumInFolder = false) :
    (processEntry f fm ts w i n pr fp).2.1 = n ∧
      tokenValues [(processEntry f fm ts w i n pr fp).1] FFOToken.incNum = [] ∧
      tokenValues [(processEntry f fm ts w i n pr fp).1] FFOToken.incNumInFolder = [] := by
  have hr := run_noInc (replaceL fp (basename fp) [])
    (if i = 0 then replaceL fp (basename fp) [] else pr)
    ((splitOnChar '.' (basename fp)).headD []) ts f w n h1 h2
  exact ⟨hr.1, (tokenValues_singleton _ _).trans hr.2.1,
    (tokenValues_singleton _ _).trans hr.2.2⟩

/-! ### Whole-plan counter facts -/

theorem tokenValues_cons (e : EntryResult) (es : List EntryResult) (k : FFOToken) :
    tokenValues (e :: es) k = tokenValues [e] k ++ tokenValues es k := by
  simp [tokenValues]

/-- Reference recurrence for the per-folder counter: the first entry gets
1; a later entry gets the previous value + 1 when its folder string equals
the previous entry's folder string, and 1 otherwise. -/
def perFolderSeqAux (prev : Str) (c : Nat) : List Str → List Nat
  | [] => []
  | f :: rest =>
    (if f = prev then c + 1 else 1) :: perFolderSeqAux f (if f = prev then c + 1 else 1) rest

def perFolderSeq : List Str → List Nat
  | [] => []
  | f :: rest => 1 :: perFolderSeqAux f 1 rest

theorem loop_incNum (f fm ts : Str) (w : Nat) :
    ∀ (l : List Str) (idx n : Nat) (prev : Str),
      (∀ e ∈ (planLoop f fm ts w idx n prev l).1,
          firedAt e FFOToken.incNum = true ∧ firedAt e FFOToken.incNumInFolder = false) →
      tokenValues (planLoop f fm ts w idx n prev l).1 FFOToken.incNum =
          (List.range l.length).map (fun j => zfill w (natToStr (n + j))) ∧
        (planLoop f fm ts w idx n prev l).2.1 = n + l.length := by
  intro l
  induction l with
  | nil =>
    intro idx n prev h
    simp [planLoop, tokenValues]
  | cons fp rest ih =>
    intro idx n prev h
    simp only [planLoop] at h ⊢
    have hhead := h _ (List.mem_cons_self _ _)
    have he := entry_incNum f fm ts w idx n prev fp hhead.1 hhead.2
    rw [he.1] at h ⊢
    have htail := fun e hm => h e (List.mem_cons_of_mem _ hm)
    have hv := ih (idx + 1) (n + 1) (processEntry f fm ts w idx n prev fp).2.2 htail
    constructor
    · rw [tokenValues_cons, he.2, hv.1, List.length_cons, List.range_succ_eq_map,
        List.map_cons, List.map_map]
      have hfun : (fun j => zfill w (natToStr (n + 1 + j))) =
          ((fun j => zfill w (natToStr (n + j))) ∘ Nat.succ) := by
        funext j
        show zfill w (natToStr (n + 1 + j)) = zfill w (natToStr (n + (j + 1)))
        congr 1
        congr 1
        omega
      rw [hfun]
      simp
    · rw [hv.2, List.length_cons]
      omega

theorem loop_incNumInFolder (f fm ts : Str) (w : Nat) :
    ∀ (l : List Str) (idx : Nat) (prev : Str) (c : Nat), idx ≠ 0 →
      (∀ e ∈ (planLoop f fm ts w idx (c + 1) prev l).1,
          firedAt e FFOToken.incNum = false ∧ firedAt e FFOToken.incNumInFolder = true) →
      tokenValues (planLoop f fm ts w idx (c + 1) prev l).1 FFOToken.incNumInFolder =
          (perFolderSeqAux prev c (l.map (fun fp => replaceL fp (basename fp) []))).map
            (fun m => zfill w (natToStr m)) ∧
        (planLoop f fm ts w idx (c + 1) prev l).2.1 =
          (perFolderSeqAux prev c
            (l.map (fun fp => replaceL fp (basename fp) []))).getLastD c + 1 := by
  intro l
  induction l with
  | nil =>
    intro idx prev c hidx h
    simp [planLoop, tokenValues, perFolderSeqAux]
  | cons fp rest ih =>
    intro idx prev c hidx h
    simp only [planLoop] at h ⊢
    have hhead := h _ (List.mem_cons_self _ _)
    have he := entry_incNumInFolder f fm ts w idx (c + 1) prev fp hhead.1 hhead.2
    rw [if_neg hidx] at he
    have hval : (if replaceL fp (basename fp) [] ≠ prev then 1 else c + 1) =
        (if replaceL fp (basename fp) [] = prev then c + 1 else 1) := by
      by_cases hp : replaceL fp (basename fp) [] = prev
      · simp [hp]
      · simp [hp]
    rw [hval] at he
    rw [he.1] at h ⊢
    have htail := fun e hm => h e (List.mem_cons_of_mem _ hm)
    have hv := ih (idx + 1) (processEntry f fm ts w idx (c + 1) prev fp).2.2
      (if replaceL fp (basename fp) [] = prev then c + 1 else 1) (by omega) htail
    constructor
    · rw [tokenValues_cons, he.2, hv.1, List.map_cons, perFolderSeqAux, List.map_cons]
      have hprev : (processEntry f fm ts w idx (c + 1) prev fp).2.2 =
          replaceL fp (basename fp) [] := rfl
      rw [hprev]
      rfl
    · rw [hv.2, List.map_cons, perFolderSeqAux, List.getLastD_cons]
      have hprev : (processEntry f fm ts w idx (c + 1) prev fp).2.2 =
          replaceL fp (basename fp) [] := rfl
      rw [hprev]

theorem loop_noInc (f fm ts : Str) (w : Nat) :
    ∀ (l : List Str) (idx n : Nat) (prev : Str),
      (∀ e ∈ (planLoop f fm ts w idx n prev l).1,
          firedAt e FFOToken.incNum = false ∧ firedAt e FFOToken.incNumInFolder = false) →
      (planLoop f fm ts w idx n prev l).2.1 = n ∧
        tokenValues (planLoop f fm ts w idx n prev l).1 FFOToken.incNum = [] ∧
        tokenValues (planLoop f fm ts w idx n prev l).1 FFOToken.incNumInFolder = [] := by
  intro l
  induction l with
  | nil =>
    intro idx n prev h
    simp [planLoop, tokenValues]
  | cons fp rest ih =>
    intro idx n prev h
    simp only [planLoop] at h ⊢
    have hhead := h _ (List.mem_cons_self _ _)
    have he := entry_noInc f fm ts w idx n prev fp hhead.1 hhead.2
    rw [he.1] at h ⊢
    have htail := fun e hm => h e (List.mem_cons_of_mem _ hm)
    have hv := ih (idx + 1) n (processEntry f fm ts w idx n prev fp).2.2 htail
    refine ⟨hv.1, ?_, ?_⟩
    · rw [tokenValues_cons, he.2.1, hv.2.1]
      rfl
    · rw [tokenValues_cons, he.2.2, hv.2.2]
      rfl

theorem planLoop_map_folderPath (f fm ts : Str) (w : Nat) :
    ∀ (l : List Str) (idx n : Nat) (prev : Str),
      (planLoop f fm ts w idx n prev l).1.map EntryResult.folderPath =
        l.map (fun fp => replaceL fp (basename fp) []) := by
  intro l
  induction l with
  | nil =>
    intro idx n prev
    simp [planLoop]
  | cons fp rest ih =>
    intro idx n prev
    simp only [planLoop, List.map_cons]
    rw [ih]
    rfl

/-- C1 is false as stated: in a planning pass over N = 2 matched files in
two folders with the template "[incNum]_[incNumInFolder]", the values
substituted for [incNum] are "1" and "3" - not the sequence 1..N - because
both tokens share the single counter `incN` (lines 894, 918-936) and the
per-folder reset assigns `incN = 1`.  The global counter is therefore not
independent of [incNumInFolder] in the same template. -/
theorem c1_counterexample :
    hasSub (strL "[incNum]_[incNumInFolder]") (tokenStr FFOToken.incNum) = true ∧
      tokenValues (computePlan [strL "/a/x.txt", strL "/b/y.txt"]
          (strL "[incNum]_[incNumInFolder]") [] []).1 FFOToken.incNum =
        [strL "1", strL "3"] ∧
      [strL "1", strL "3"] ≠
        (List.range 2).map (fun j => zfill ((natToStr 2).length) (natToStr (j + 1))) :=
  ⟨by decide, by decide, by decide⟩

/-- C1 amended: in every planning pass in which, for each entry, the
[incNum] token fires (its bracket form is present in the partially
substituted name at its turn) and the [incNumInFolder] token does not
fire, the values substituted for [incNum] in plan order are exactly
str(1), ..., str(N) each zero-padded to len(str(N)) digits, with no
repeats, independent of folder changes.  (In particular this covers every
template that contains [incNum] but not [incNumInFolder], provided no
earlier substitution injects those bracket forms into the name.) -/
theorem c1_incNum_values_amended (fileList : List Str)
    (newForm folder2move tsStr : Str)
    (h : ∀ e ∈ (computePlan fileList newForm folder2move tsStr).1,
        firedAt e FFOToken.incNum = true ∧ firedAt e FFOToken.incNumInFolder = false) :
    tokenValues (computePlan fileList newForm folder2move tsStr).1 FFOToken.incNum =
        (List.range fileList.length).map
          (fun j => zfill ((natToStr fileList.length).length) (natToStr (j + 1))) ∧
      ((List.range fileList.length).map
          (fun j => zfill ((natToStr fileList.length).length) (natToStr (j + 1)))).Nodup := by
  constructor
  · rw [computePlan] at h ⊢
    have hl := loop_incNum newForm folder2move tsStr ((natToStr fileList.length).length)
      fileList 0 1 [] h
    rw [hl.1]
    have hfun : (fun j => zfill ((natToStr fileList.length).length) (natToStr (1 + j))) =
        (fun j => zfill ((natToStr fileList.length).length) (natToStr (j + 1))) := by
      funext j
      congr 1
      congr 1
      omega
    rw [hfun]
  · apply List.Nodup.map _ (List.nodup_range _)
    intro a b hab
    have h2 : a + 1 = b + 1 :=
      zfill_natToStr_injective ((natToStr fileList.length).length) hab
    omega

/-- Witness for the amended C1 at a concrete input: two files, template
"[incNum]". -/
theorem c1_incNum_values_amended_witness :
    tokenValues (computePlan [strL "/a/x.txt", strL "/b/y.txt"]
        (strL "[incNum]") [] []).1 FFOToken.incNum =
        (List.range ([strL "/a/x.txt", strL "/b/y.txt"] : List Str).length).map
          (fun j => zfill
            ((natToStr ([strL "/a/x.txt", strL "/b/y.txt"] : List Str).length).length)
            (natToStr (j + 1))) ∧
      ((List.range ([strL "/a/x.txt", strL "/b/y.txt"] : List Str).length).map
          (fun j => zfill
            ((natToStr ([strL "/a/x.txt", strL "/b/y.txt"] : List Str).length).length)
            (natToStr (j + 1)))).Nodup :=
  c1_incNum_values_amended [strL "/a/x.txt", strL "/b/y.txt"] (strL "[incNum]") [] []
    (by decide)

/-- C4 is false as stated: with a single matched file and the template
"[incNum]_[incNumInFolder]", the first entry's [incNumInFolder] value is
"2", not "1", because [incNum] already incremented the shared counter in
the same entry (lines 894, 918-936). -/
theorem c4_counterexample :
    tokenValues (computePlan [strL "/a/x.txt"] (strL "[incNum]_[incNumInFolder]") [] []).1
        FFOToken.incNumInFolder = [strL "2"] ∧
      strL "2" ≠ zfill ((natToStr 1).length) (natToStr 1) :=
  ⟨by decide, by decide⟩

/-- C4 amended: in every planning pass in which, for each entry, the
[incNumInFolder] token fires and the [incNum] token does not, the values
substituted for [incNumInFolder] follow exactly the recurrence: the first
entry gets 1; a later entry gets the previous entry's value + 1 when its
derived folder string (the source path with every occurrence of the base
name removed, line 909) equals the previous entry's derived folder string,
and resets to 1 exactly when the derived folder strings differ; each value
zero-padded to len(str(N)). -/
theorem c4_incNumInFolder_amended (fileList : List Str)
    (newForm folder2move tsStr : Str)
    (h : ∀ e ∈ (computePlan fileList newForm folder2move tsStr).1,
        firedAt e FFOToken.incNum = false ∧ firedAt e FFOToken.incNumInFolder = true) :
    tokenValues (computePlan fileList newForm folder2move tsStr).1 FFOToken.incNumInFolder =
      (perFolderSeq ((computePlan fileList newForm folder2move tsStr).1.map
          EntryResult.folderPath)).map
        (fun m => zfill ((natToStr fileList.length).length) (natToStr m)) := by
  rw [computePlan] at h ⊢
  rcases fileList with _ | ⟨fp0, rest⟩
  · simp [planLoop, tokenValues, perFolderSeq]
  · simp only [planLoop] at h ⊢
    have hhead := h _ (List.mem_cons_self _ _)
    have he := entry_incNumInFolder newForm folder2move tsStr
      ((natToStr (fp0 :: rest).length).length) 0 1 [] fp0 hhead.1 hhead.2
    simp only [if_pos rfl, ne_eq, not_true_eq_false, if_false, ite_self] at he
    rw [he.1] at h ⊢
    have htail := fun e hm => h e (List.mem_cons_of_mem _ hm)
    have hv := loop_incNumInFolder newForm folder2move tsStr
      ((natToStr (fp0 :: rest).length).length) rest 1
      (processEntry newForm folder2move tsStr ((natToStr (fp0 :: rest).length).length)
        0 1 [] fp0).2.2 1 (by omega) htail
    rw [tokenValues_cons, he.2, hv.1, List.map_cons, planLoop_map_folderPath]
    have hprev : (processEntry newForm folder2move tsStr
        ((natToStr (fp0 :: rest).length).length) 0 1 [] fp0).2.2 =
        replaceL fp0 (basename fp0) [] := rfl
    have hfold : (processEntry newForm folder2move tsStr
        ((natToStr (fp0 :: rest).length).length) 0 1 [] fp0).1.folderPath =
        replaceL fp0 (basename fp0) [] := rfl
    rw [hprev, hfold, perFolderSeq, List.map_cons]
    rfl

/-- Witness for the amended C4 at a concrete input: three files in two
folders, template "[incNumInFolder]", giving values 1, 2, 1. -/
theorem c4_incNumInFolder_amended_witness :
    tokenValues (computePlan [strL "/a/x.txt", strL "/a/y.txt", strL "/b/z.txt"]
        (strL "[incNumInFolder]") [] []).1 FFOToken.incNumInFolder =
      (perFolderSeq ((computePlan [strL "/a/x.txt", strL "/a/y.txt", strL "/b/z.txt"]
          (strL "[incNumInFolder]") [] []).1.map EntryResult.folderPath)).map
        (fun m => zfill ((natToStr
          ([strL "/a/x.txt", strL "/a/y.txt", strL "/b/z.txt"] : List Str).length).length)
          (natToStr m)) :=
  c4_incNumInFolder_amended [strL "/a/x.txt", strL "/a/y.txt", strL "/b/z.txt"]
    (strL "[incNumInFolder]") [] [] (by decide)

/-- C9 is false as stated: the skip check `if not tStr in newFN` (line
916) consults the partially substituted name, not the template.  With the
template "[oFileN]" - which contains neither [incNum] nor
[incNumInFolder] - and a file named "[incNum].txt", the [oFileN]
substitution injects "[incNum]" into the name, the incNum branch then
fires, substitutes "1" and increments the counter from 1 to 2. -/
theorem c9_counterexample :
    hasSub (strL "[oFileN]") (tokenStr FFOToken.incNum) = false ∧
      hasSub (strL "[oFileN]") (tokenStr FFOToken.incNumInFolder) = false ∧
      (computePlan [strL "/d/[incNum].txt"] (strL "[oFileN]") [] []).2.1 = 2 ∧
      tokenValues (computePlan [strL "/d/[incNum].txt"] (strL "[oFileN]") [] []).1
        FFOToken.incNum = [strL "1"] :=
  ⟨by decide, by decide, by decide, by decide⟩

/-- C9 amended: a recognized token is skipped - no substitution, no
counter side effect - exactly when its bracket form is absent from the
partially substituted name at that token's turn.  Consequently, in every
planning pass in which neither [incNum] nor [incNumInFolder] fires at any
entry (in particular, for templates containing neither bracket form and
whose substituted values never inject them), the shared sequence counter
ends the pass at its initial value 1 and no inc-token substitution is
recorded. -/
theorem c9_skipped_tokens_amended (fileList : List Str)
    (newForm folder2move tsStr : Str)
    (h : ∀ e ∈ (computePlan fileList newForm folder2move tsStr).1,
        firedAt e FFOToken.incNum = false ∧ firedAt e FFOToken.incNumInFolder = false) :
    (computePlan fileList newForm folder2move tsStr).2.1 = 1 ∧
      tokenValues (computePlan fileList newForm folder2move tsStr).1 FFOToken.incNum = [] ∧
      tokenValues (computePlan fileList newForm folder2move tsStr).1
        FFOToken.incNumInFolder = [] := by
  rw [computePlan] at h ⊢
  exact loop_noInc newForm folder2move tsStr ((natToStr fileList.length).length)
    fileList 0 1 [] h

/-- Witness for the amended C9 at a concrete input. -/
theorem c9_skipped_tokens_amended_witness :
    (computePlan [strL "/d/x.txt"] (strL "[oFileN]") [] []).2.1 = 1 ∧
      tokenValues (computePlan [strL "/d/x.txt"] (strL "[oFileN]") [] []).1
        FFOToken.incNum = [] ∧
      tokenValues (computePlan [strL "/d/x.txt"] (strL "[oFileN]") [] []).1
        FFOToken.incNumInFolder = [] :=
  c9_skipped_tokens_amended [strL "/d/x.txt"] (strL "[oFileN]") [] [] (by decide)

/-! ### The rename executor (onButtonPressDown, "run_btn" branch, lines
763-773) and the log file (lines 301-307).

The filesystem rename is abstracted by a predicate `renameOk src dst`
telling whether `rename(fp, newFP)` succeeds or raises.  The executor
walks the (source, destination) pairs in order; each successful rename is
performed and its record `"%s, %s, %s\n\n" % (timestamp, fp, newFP)`
appended to the in-memory `msg4log`; a raising rename aborts the loop (the
exception propagates out of the handler), leaving earlier renames done but
discarding `msg4log`.  Only after the whole loop does
`writeFile(self.logFile, msg4log)` append to the log (mode 'a').  The log
file is created with its header once, at startup, only when absent
(lines 304-307); every later write appends.  `get_time_stamp()` is
modelled as one timestamp string for the batch. -/

def logRecord (tsStr fp newFP : Str) : Str :=
  tsStr ++ strL ", " ++ fp ++ strL ", " ++ newFP ++ strL "\n\n"

def runRenaming (renameOk : Str → Str → Bool) (tsStr : Str) :
    List (Str × Str) → List (Str × Str) × Except (Str × Str) Str
  | [] => ([], Except.ok [])
  | (fp, nfp) :: rest =>
    if renameOk fp nfp then
      ((fp, nfp) :: (runRenaming renameOk tsStr rest).1,
        (runRenaming renameOk tsStr rest).2.map
          (fun msg => logRecord tsStr fp nfp ++ msg))
    else ([], Except.error (fp, nfp))

/-- The log file content after the run: `writeFile(self.logFile, msg4log)`
in append mode runs only when the loop finished without an exception. -/
def logAfterRun (log0 : Str) : Except (Str × Str) Str → Str
  | Except.ok msg => log0 ++ msg
  | Except.error _ => log0

def logHeader : Str :=
  strL "Timestamp, Origianl file, Renamed file\n----------------------------------------\n"

/-- Log file initialisation at startup: write the header only when the
file does not exist; an existing file is left untouched. -/
def initLogFile : Option Str → Str
  | some content => content
  | none => logHeader

theorem runRenaming_all_ok (renameOk : Str → Str → Bool) (tsStr : Str) :
    ∀ pairs : List (Str × Str), (∀ pr ∈ pairs, renameOk pr.1 pr.2 = true) →
      runRenaming renameOk tsStr pairs =
        (pairs, Except.ok ((pairs.map (fun pr => logRecord tsStr pr.1 pr.2)).flatten)) := by
  intro pairs
  induction pairs with
  | nil =>
    intro h
    simp [runRenaming]
  | cons pr rest ih =>
    intro h
    rcases pr with ⟨fp, nfp⟩
    rw [runRenaming, if_pos (h _ (List.mem_cons_self _ _))]
    rw [ih (fun q hq => h q (List.mem_cons_of_mem _ hq))]
    simp [Except.map]

theorem runRenaming_fail (renameOk : Str → Str → Bool) (tsStr : Str) :
    ∀ (good : List (Str × Str)) (bad : Str × Str) (rest : List (Str × Str)),
      (∀ pr ∈ good, renameOk pr.1 pr.2 = true) → renameOk bad.1 bad.2 = false →
      runRenaming renameOk tsStr (good ++ bad :: rest) =
        (good, Except.error bad) := by
  intro good
  induction good with
  | nil =>
    intro bad rest _ hbad
    rcases bad with ⟨fp, nfp⟩
    rw [List.nil_append, runRenaming, if_neg (by simp [hbad])]
  | cons pr good' ih =>
    intro bad rest h hbad
    rcases pr with ⟨fp, nfp⟩
    rw [List.cons_append, runRenaming, if_pos (h _ (List.mem_cons_self _ _))]
    rw [ih bad rest (fun q hq => h q (List.mem_cons_of_mem _ hq)) hbad]
    rfl

/-- C8 amended: the executor processes the plan in order, performing every
rename up to the first failure; log records are accumulated in memory and
appended to the log in a single write only after the whole batch succeeds,
so a batch that fails part-way appends nothing - the records of its
already-performed renames are lost.  On a fully successful batch the log
gains one record `timestamp, sourcePath, destinationPath` plus a blank
line per pair, in plan order.  The log file is created with its header
only if absent and is never truncated (all writes append). -/
theorem c8_executor_amended (renameOk : Str → Str → Bool) (tsStr log0 : Str)
    (pairs : List (Str × Str)) :
    ((∀ pr ∈ pairs, renameOk pr.1 pr.2 = true) →
      runRenaming renameOk tsStr pairs =
          (pairs, Except.ok ((pairs.map (fun pr => logRecord tsStr pr.1 pr.2)).flatten)) ∧
        logAfterRun log0 (runRenaming renameOk tsStr pairs).2 =
          log0 ++ (pairs.map (fun pr => logRecord tsStr pr.1 pr.2)).flatten) ∧
    (∀ (good : List (Str × Str)) (bad : Str × Str) (rest : List (Str × Str)),
      pairs = good ++ bad :: rest → (∀ pr ∈ good, renameOk pr.1 pr.2 = true) →
      renameOk bad.1 bad.2 = false →
      (runRenaming renameOk tsStr pairs).1 = good ∧
        logAfterRun log0 (runRenaming renameOk tsStr pairs).2 = log0) ∧
    (∀ c, initLogFile (some c) = c) ∧ initLogFile none = logHeader := by
  refine ⟨?_, ?_, fun c => rfl, rfl⟩
  · intro h
    have hr := runRenaming_all_ok renameOk tsStr pairs h
    rw [hr]
    exact ⟨rfl, rfl⟩
  · intro good bad rest hsplit hgood hbad
    subst hsplit
    rw [runRenaming_fail renameOk tsStr good bad rest hgood hbad]
    exact ⟨rfl, rfl⟩

/-- Witness for the amended C8 at a concrete input (one pair, all renames
succeed). -/
theorem c8_executor_amended_witness :
    runRenaming (fun _ _ => true) (strL "TS") [(strL "/a/x", strL "/a/y")] =
        ([(strL "/a/x", strL "/a/y")],
          Except.ok ((([(strL "/a/x", strL "/a/y")] : List (Str × Str)).map
            (fun pr => logRecord (strL "TS") pr.1 pr.2)).flatten)) ∧
      logAfterRun logHeader
          (runRenaming (fun _ _ => true) (strL "TS") [(strL "/a/x", strL "/a/y")]).2 =
        logHeader ++ (([(strL "/a/x", strL "/a/y")] : List (Str × Str)).map
          (fun pr => logRecord (strL "TS") pr.1 pr.2)).flatten :=
  (c8_executor_amended (fun _ _ => true) (strL "TS") logHeader
    [(strL "/a/x", strL "/a/y")]).1 (by decide)

/-- C8 is false as stated: in a batch of two pairs where the first rename
succeeds and the second raises, the first file is renamed (it is in the
performed list) but the final log equals the initial log - the record of
the already-successful rename was never appended, because the single
`writeFile` call sits after the loop (line 771) and the exception skips
it. -/
theorem c8_counterexample :
    (runRenaming (fun s _ => decide (s = strL "/a/x")) (strL "TS")
        [(strL "/a/x", strL "/a/y"), (strL "/b/u", strL "/b/v")]).1 =
      [(strL "/a/x", strL "/a/y")] ∧
    logAfterRun logHeader ((runRenaming (fun s _ => decide (s = strL "/a/x")) (strL "TS")
        [(strL "/a/x", strL "/a/y"), (strL "/b/u", strL "/b/v")]).2) = logHeader ∧
    hasSub (logAfterRun logHeader ((runRenaming (fun s _ => decide (s = strL "/a/x"))
        (strL "TS")
        [(strL "/a/x", strL "/a/y"), (strL "/b/u", strL "/b/v")]).2))
      (logRecord (strL "TS") (strL "/a/x") (strL "/a/y")) = false :=
  ⟨by decide, by decide, by decide⟩

/-! ### glob-style matching (Python fnmatch/glob, as called on lines
860 and 884-886).

`fnmatchF` translates fnmatch.fnmatch for POSIX, case-sensitive:
'*' matches any sequence, '?' any single character, '[seq]' a character
class with '!' negation and a-b ranges (']' right after the opening
bracket, or after '!', is a literal member; an unterminated '[' is a
literal character).  The fuel argument (pattern length + name length + 1
at the call site) only makes the recursion structural.  `globNameMatch`
adds glob's hidden-file rule: a name starting with '.' is only matched
when the pattern itself starts with '.'. -/

def findRBracket : Str → Option (Str × Str)
  | [] => none
  | ']' :: rest => some ([], rest)
  | c :: rest => (findRBracket rest).map (fun pr => (c :: pr.1, pr.2))

def splitClassCore : Str → Option (Str × Str)
  | ']' :: t => (findRBracket t).map (fun pr => (']' :: pr.1, pr.2))
  | s => findRBracket s

def splitClass : Str → Option (Str × Str × Bool)
  | '!' :: t => (splitClassCore t).map (fun pr => (pr.1, pr.2, true))
  | s => (splitClassCore s).map (fun pr => (pr.1, pr.2, false))

def matchClassMem : Str → Char → Bool
  | a :: '-' :: b :: rest, c => (decide (a ≤ c) && decide (c ≤ b)) || matchClassMem rest c
  | a :: rest, c => decide (a = c) || matchClassMem rest c
  | [], _ => false

def fnmatchF : Nat → Str → Str → Bool
  | 0, pat, nm => pat.isEmpty && nm.isEmpty
  | fuel + 1, pat, nm =>
    match pat with
    | [] => nm.isEmpty
    | '*' :: ps =>
      fnmatchF fuel ps nm ||
        (match nm with
          | [] => false
          | _ :: nt => fnmatchF fuel ('*' :: ps) nt)
    | '?' :: ps =>
      (match nm with
        | [] => false
        | _ :: nt => fnmatchF fuel ps nt)
    | '[' :: ps =>
      (match splitClass ps with
        | none =>
          (match nm with
            | [] => false
            | c :: nt => decide ('[' = c) && fnmatchF fuel ps nt)
        | some (cls, rest, neg) =>
          (match nm with
            | [] => false
            | c :: nt =>
              (if neg then !(matchClassMem cls c) else matchClassMem cls c) &&
                fnmatchF fuel rest nt))
    | p :: ps =>
      (match nm with
        | [] => false
        | c :: nt => decide (p = c) && fnmatchF fuel ps nt)

def fnmatchL (pat nm : Str) : Bool := fnmatchF (pat.length + nm.length + 1) pat nm

/-- glob's per-name test at one directory level (glob1 of the stdlib glob
module): names beginning with '.' are hidden from patterns that do not
themselves begin with '.'; surviving names are tested with fnmatch. -/
def globNameMatch (pattern name : Str) : Bool :=
  (decide (pattern.head? = some '.') || !(decide (name.head? = some '.'))) &&
    fnmatchL pattern name

/-! ### A finite filesystem tree -/

inductive FsNode where
  | file (name : Str)
  | dir (name : Str) (children : List FsNode)

def nodeName : FsNode → Str
  | .file n => n
  | .dir n _ => n

mutual

/-- FileRenamerFrame.addFolders (lines 849-864): for each fp in
glob(path.join(dp, '*')) (entries of the folder in listing order, hidden
names excluded by the '*' pattern), if path.isdir(fp) then append fp and
recurse into it before moving on.  Returns the appended (path, children)
pairs in discovery order. -/
def addFoldersNode (dp : Str) : FsNode → List (Str × List FsNode)
  | .file _ => []
  | .dir name children =>
    if globNameMatch (strL "*") name then
      (pathJoin dp name, children) :: addFoldersList (pathJoin dp name) children
    else []

def addFoldersList (dp : Str) : List FsNode → List (Str × List FsNode)
  | [] => []
  | c :: rest => addFoldersNode dp c ++ addFoldersList dp rest

end

/-- Lines 722-728: MultiDirDialog may return each chosen path with a disk
name prepended ("Macintosh HD/tmp"); everything before the first '/' is
cut off.  A path with no '/' is left unchanged. -/
def stripRootPrefix (fp : Str) : Str :=
  match fp.findIdx? (fun c => c = '/') with
  | none => fp
  | some i => fp.drop i

/-- The "selectFolders" branch of onButtonPressDown (lines 719-748):
strip the raw picker paths, then, when "include sub-folders" is checked,
append each root followed by its recursively discovered sub-folders.
Each root carries `some children` when the stripped path exists as a
directory and `none` otherwise; the handler itself never checks
existence, and glob on a missing folder simply returns nothing. -/
def selectedFoldersOf (picked : List (Str × Option (List FsNode)))
    (includeSub : Bool) : List (Str × Option (List FsNode)) :=
  let stripped := picked.map (fun r => (stripRootPrefix r.1, r.2))
  if includeSub then
    stripped.flatMap (fun r =>
      r :: (match r.2 with
        | some children =>
          (addFoldersList r.1 children).map (fun q => (q.1, some q.2))
        | none => []))
  else stripped

/-- Lines 884-887 of updateFileList: fL += glob(path.join(dp, fileForm))
for each selected folder, in order.  A missing folder contributes
nothing; a matching entry contributes its joined path whether it is a
file or a directory (the code filters nothing else). -/
def computeFileList (folders : List (Str × Option (List FsNode)))
    (fileForm : Str) : List Str :=
  folders.flatMap (fun r =>
    match r.2 with
    | none => []
    | some children =>
      (children.filter (fun c => globNameMatch fileForm (nodeName c))).map
        (fun c => pathJoin r.1 (nodeName c)))

/-- Well-formedness of a directory level used by the nodup analysis:
entry names are nonempty, contain no '/', and are distinct within each
directory. -/
def okName (n : Str) : Bool := decide (n ≠ []) && decide ('/' ∉ n)

mutual

def wfNode : FsNode → Bool
  | .file n => okName n
  | .dir n children => okName n && wfList children

def wfList : List FsNode → Bool
  | [] => true
  | c :: rest =>
    wfNode c && decide (nodeName c ∉ rest.map nodeName) && wfList rest

end

/-! ### Structure of the collected folder set -/

theorem okName_spec (n : Str) (h : okName n = true) : n ≠ [] ∧ '/' ∉ n := by
  simpa [okName] using h

theorem wfNode_okName (c : FsNode) (h : wfNode c = true) : okName (nodeName c) = true := by
  cases c with
  | file n => simpa [wfNode, nodeName] using h
  | dir n ch =>
    simp [wfNode] at h
    simpa [nodeName] using h.1

theorem wfList_mem (l : List FsNode) (h : wfList l = true) :
    ∀ c ∈ l, wfNode c = true := by
  induction l with
  | nil => simp
  | cons c rest ih =>
    simp [wfList] at h
    intro c' hc'
    rcases List.mem_cons.mp hc' with hc' | hc'
    · rw [hc']
      exact h.1.1
    · exact ih h.2 c' hc'

theorem pathJoin_eq (dp name : Str) (hdp : dp ≠ []) (hdl : dp.getLast? ≠ some '/')
    (hns : '/' ∉ name) : pathJoin dp name = dp ++ '/' :: name := by
  rw [pathJoin, if_neg (fun hh => hns (head?_mem _ _ hh)), if_neg hdp, if_neg hdl]

theorem prefix_cancel_left {α : Type} (x a b : List α) (h : (x ++ a) <+: (x ++ b)) :
    a <+: b := by
  obtain ⟨t, ht⟩ := h
  rw [List.append_assoc] at ht
  exact ⟨t, List.append_cancel_left ht⟩

theorem prefix_snoc_le {α : Type} (a b : List α) (z : α) (h : a <+: (b ++ [z]))
    (hlen : a.length ≤ b.length) : a <+: b := by
  have h2 := List.prefix_iff_eq_take.mp h
  rw [List.take_append_of_le_length hlen] at h2
  rw [h2]
  exact List.take_prefix _ _

theorem snocPrefix_names (n1 n2 : Str) (h : (n1 ++ ['/']) <+: (n2 ++ ['/']))
    (h2 : '/' ∉ n2) : n1 = n2 := by
  rcases Nat.lt_trichotomy n1.length n2.length with hlt | heq | hgt
  · have hp := prefix_snoc_le (n1 ++ ['/']) n2 '/' h (by simp; omega)
    exact absurd (hp.subset (by simp)) h2
  · have := h.eq_of_length (by simp [heq])
    exact List.append_cancel_right this
  · have := h.length_le
    simp at this
    omega

/-- Two generated sub-folder paths lying under sibling entries with
different names cannot coincide: the path determines the first-level
entry name. -/
theorem under_label_inj (dp n1 n2 q : Str) (h1n : '/' ∉ n1) (h2n : '/' ∉ n2)
    (hu1 : q = dp ++ '/' :: n1 ∨ ((dp ++ '/' :: n1) ++ ['/']) <+: q)
    (hu2 : q = dp ++ '/' :: n2 ∨ ((dp ++ '/' :: n2) ++ ['/']) <+: q) : n1 = n2 := by
  have hsplit1 : dp ++ '/' :: n1 = (dp ++ ['/']) ++ n1 := by simp
  have hsplit2 : dp ++ '/' :: n2 = (dp ++ ['/']) ++ n2 := by simp
  rcases hu1 with hu1 | hu1 <;> rcases hu2 with hu2 | hu2
  · rw [hu1] at hu2
    rw [hsplit1, hsplit2] at hu2
    have := List.append_cancel_left hu2
    exact this
  · rw [hu1] at hu2
    rw [hsplit1, hsplit2] at hu2
    have hpre : (dp ++ ['/']) ++ (n2 ++ ['/']) <+: (dp ++ ['/']) ++ n1 := by
      simpa using hu2
    have := prefix_cancel_left _ _ _ hpre
    exact absurd (this.subset (by simp)) h1n
  · rw [hu2] at hu1
    rw [hsplit1, hsplit2] at hu1
    have hpre : (dp ++ ['/']) ++ (n1 ++ ['/']) <+: (dp ++ ['/']) ++ n2 := by
      simpa using hu1
    have := prefix_cancel_left _ _ _ hpre
    exact absurd (this.subset (by simp)) h2n
  · rcases List.prefix_or_prefix_of_prefix hu1 hu2 with hp | hp
    · have hpre : (dp ++ ['/']) ++ (n1 ++ ['/']) <+: (dp ++ ['/']) ++ (n2 ++ ['/']) := by
        rw [hsplit1, hsplit2] at hp
        simpa using hp
      exact snocPrefix_names n1 n2 (prefix_cancel_left _ _ _ hpre) h2n
    · have hpre : (dp ++ ['/']) ++ (n2 ++ ['/']) <+: (dp ++ ['/']) ++ (n1 ++ ['/']) := by
        rw [hsplit1, hsplit2] at hp
        simpa using hp
      exact (snocPrefix_names n2 n1 (prefix_cancel_left _ _ _ hpre) h1n).symm

theorem getLast?_of_ne_nil {α : Type} (l : List α) (h : l ≠ []) :
    ∃ a, l.getLast? = some a ∧ a ∈ l := by
  refine ⟨l.getLast h, List.getLast?_eq_getLast l h, List.getLast_mem h⟩

mutual

theorem addFoldersNode_spec : ∀ (c : FsNode) (dp : Str), dp ≠ [] →
    dp.getLast? ≠ some '/' → wfNode c = true →
    ((addFoldersNode dp c).map Prod.fst).Nodup ∧
      ∀ p ∈ (addFoldersNode dp c).map Prod.fst,
        (p = pathJoin dp (nodeName c) ∨ (pathJoin dp (nodeName c) ++ ['/']) <+: p) ∧
          p ≠ [] ∧ p.getLast? ≠ some '/'
  | FsNode.file n, dp, hdp, hdl, hwf => by
    simp [addFoldersNode]
  | FsNode.dir name children, dp, hdp, hdl, hwf => by
    have hok : okName name = true := by
      simp [wfNode] at hwf
      simpa [okName] using hwf.1
    have hwfc : wfList children = true := by
      simp [wfNode] at hwf
      exact hwf.2
    obtain ⟨hn, hns⟩ := okName_spec name hok
    have hPeq : pathJoin dp name = dp ++ '/' :: name := pathJoin_eq dp name hdp hdl hns
    have hPne : pathJoin dp name ≠ [] := by
      rw [hPeq]
      simp
    have hPlast : (pathJoin dp name).getLast? ≠ some '/' := by
      rw [hPeq]
      obtain ⟨a, ha, hamem⟩ := getLast?_of_ne_nil name hn
      rw [List.getLast?_append, getLast?_cons_of_ne_nil '/' name hn, ha]
      intro hh
      simp at hh
      exact hns (hh ▸ hamem)
    rw [addFoldersNode]
    by_cases hg : globNameMatch (strL "*") name = true
    · rw [if_pos hg]
      have hrec := addFoldersList_spec children (pathJoin dp name) hPne hPlast hwfc
      constructor
      · rw [List.map_cons, List.nodup_cons]
        refine ⟨?_, hrec.1⟩
        intro hmem
        obtain ⟨⟨c', hc', hu⟩, hne, hlast⟩ := hrec.2 _ hmem
        have hok' := okName_spec _ (wfNode_okName c' (wfList_mem children hwfc c' hc'))
        have hlab : pathJoin (pathJoin dp name) (nodeName c') =
            pathJoin dp name ++ '/' :: nodeName c' :=
          pathJoin_eq _ _ hPne hPlast hok'.2
        rcases hu with hu | hu
        · rw [hlab] at hu
          have hlen := congrArg List.length hu
          simp at hlen
        · rw [hlab] at hu
          have hlen := hu.length_le
          simp at hlen
      · intro p hp
        rw [List.map_cons] at hp
        rcases List.mem_cons.mp hp with hp | hp
        · refine ⟨Or.inl (by rw [hp]; rfl), ?_, ?_⟩
          · rw [hp]
            exact hPne
          · rw [hp]
            exact hPlast
        · obtain ⟨⟨c', hc', hu⟩, hne, hlast⟩ := hrec.2 _ hp
          have hok' := okName_spec _ (wfNode_okName c' (wfList_mem children hwfc c' hc'))
          have hlab : pathJoin (pathJoin dp name) (nodeName c') =
              pathJoin dp name ++ '/' :: nodeName c' :=
            pathJoin_eq _ _ hPne hPlast hok'.2
          refine ⟨Or.inr ?_, hne, hlast⟩
          show (pathJoin dp (nodeName (FsNode.dir name children)) ++ ['/']) <+: p
          have hPn : pathJoin dp (nodeName (FsNode.dir name children)) = pathJoin dp name := rfl
          rw [hPn]
          rcases hu with hu | hu
          · rw [hu, hlab]
            refine ⟨nodeName c', ?_⟩
            simp
          · refine List.IsPrefix.trans ?_ hu
            rw [hlab]
            refine ⟨nodeName c' ++ ['/'], ?_⟩
            simp
    · rw [if_neg hg]
      simp

theorem addFoldersList_spec : ∀ (l : List FsNode) (dp : Str), dp ≠ [] →
    dp.getLast? ≠ some '/' → wfList l = true →
    ((addFoldersList dp l).map Prod.fst).Nodup ∧
      ∀ p ∈ (addFoldersList dp l).map Prod.fst,
        (∃ c ∈ l, p = pathJoin dp (nodeName c) ∨
          (pathJoin dp (nodeName c) ++ ['/']) <+: p) ∧
          p ≠ [] ∧ p.getLast? ≠ some '/'
  | [], dp, hdp, hdl, hwf => by
    simp [addFoldersList]
  | c :: rest, dp, hdp, hdl, hwf => by
    have hwf' : (wfNode c = true ∧ nodeName c ∉ rest.map nodeName) ∧ wfList rest = true := by
      simpa [wfList] using hwf
    have h1 := addFoldersNode_spec c dp hdp hdl hwf'.1.1
    have h2 := addFoldersList_spec rest dp hdp hdl hwf'.2
    rw [addFoldersList, List.map_append]
    constructor
    · rw [List.nodup_append]
      refine ⟨h1.1, h2.1, ?_⟩
      intro q hq1 hq2
      obtain ⟨hu1, hne1, hl1⟩ := h1.2 q hq1
      obtain ⟨⟨c', hc', hu2⟩, hne2, hl2⟩ := h2.2 q hq2
      have hnc' : nodeName c' ∈ rest.map nodeName := List.mem_map_of_mem _ hc'
      have hok1 := okName_spec _ (wfNode_okName c hwf'.1.1)
      have hok2 := okName_spec _ (wfNode_okName c' (wfList_mem rest hwf'.2 c' hc'))
      have heqn : nodeName c = nodeName c' := by
        apply under_label_inj dp (nodeName c) (nodeName c') q hok1.2 hok2.2
        · rw [← pathJoin_eq dp _ hdp hdl hok1.2]
          exact hu1
        · rw [← pathJoin_eq dp _ hdp hdl hok2.2]
          exact hu2
      exact hwf'.1.2 (heqn ▸ hnc')
    · intro p hp
      rcases List.mem_append.mp hp with hp | hp
      · obtain ⟨hu, hne, hl⟩ := h1.2 p hp
        exact ⟨⟨c, List.mem_cons_self _ _, hu⟩, hne, hl⟩
      · obtain ⟨⟨c', hc', hu⟩, hne, hl⟩ := h2.2 p hp
        exact ⟨⟨c', List.mem_cons_of_mem _ hc', hu⟩, hne, hl⟩

end

theorem snocPrefix_roots (a b : Str) (h : (a ++ ['/']) <+: (b ++ ['/'])) :
    a = b ∨ (a ++ ['/']) <+: b := by
  rcases Nat.lt_trichotomy a.length b.length with hlt | heq | hgt
  · right
    exact prefix_snoc_le _ _ _ h (by simp; omega)
  · left
    exact List.append_cancel_right (h.eq_of_length (by simp [heq]))
  · have := h.length_le
    simp at this
    omega

theorem rootUnder_disjoint (a b q : Str) (hne : a ≠ b) (hab : ¬ (a ++ ['/']) <+: b)
    (hba : ¬ (b ++ ['/']) <+: a)
    (h1 : q = a ∨ (a ++ ['/']) <+: q) (h2 : q = b ∨ (b ++ ['/']) <+: q) : False := by
  rcases h1 with h1 | h1 <;> rcases h2 with h2 | h2
  · exact hne (h1 ▸ h2.symm ▸ rfl)
  · exact hba (h1 ▸ h2)
  · exact hab (h2 ▸ h1)
  · rcases List.prefix_or_prefix_of_prefix h1 h2 with hp | hp
    · rcases snocPrefix_roots a b hp with hp' | hp'
      · exact hne hp'
      · exact hab hp'
    · rcases snocPrefix_roots b a hp with hp' | hp'
      · exact hne hp'.symm
      · exact hba hp'

/-- The folder paths contributed by one selected root: the root itself
followed by its recursive expansion (empty when the root is not an
existing directory). -/
def rootBlockPaths (r : Str × Option (List FsNode)) : List Str :=
  r.1 :: (match r.2 with
    | some children => (addFoldersList r.1 children).map Prod.fst
    | none => [])

/-- Well-formedness of one selected root used by the amended C6: the
stripped path is nonempty and does not end in '/', and its tree (when it
exists) is level-wise well formed. -/
def rootOk (r : Str × Option (List FsNode)) : Bool :=
  decide (stripRootPrefix r.1 ≠ []) &&
    decide ((stripRootPrefix r.1).getLast? ≠ some '/') &&
    (match r.2 with
      | some children => wfList children
      | none => true)

/-- No selected root equals or lies strictly inside another selected
root (after normalization). -/
def rootsCompat (a b : Str × Option (List FsNode)) : Prop :=
  stripRootPrefix a.1 ≠ stripRootPrefix b.1 ∧
    ¬ ((stripRootPrefix a.1 ++ ['/']) <+: stripRootPrefix b.1) ∧
    ¬ ((stripRootPrefix b.1 ++ ['/']) <+: stripRootPrefix a.1)

theorem selectedFoldersOf_paths (picked : List (Str × Option (List FsNode))) :
    (selectedFoldersOf picked true).map Prod.fst =
      picked.flatMap (fun r => rootBlockPaths (stripRootPrefix r.1, r.2)) := by
  induction picked with
  | nil => rfl
  | cons r rest ih =>
    simp only [selectedFoldersOf, if_pos rfl, List.map_cons, List.flatMap_cons,
      List.map_append] at ih ⊢
    rw [← ih]
    rcases r with ⟨p, och⟩
    rcases och with _ | ch
    · simp [rootBlockPaths]
    · simp [rootBlockPaths, List.map_map]

theorem rootBlockPaths_nodup (r : Str × Option (List FsNode))
    (hok : rootOk r = true) :
    (rootBlockPaths (stripRootPrefix r.1, r.2)).Nodup ∧
      ∀ q ∈ rootBlockPaths (stripRootPrefix r.1, r.2),
        q = stripRootPrefix r.1 ∨ (stripRootPrefix r.1 ++ ['/']) <+: q := by
  have hok' : stripRootPrefix r.1 ≠ [] ∧
      (stripRootPrefix r.1).getLast? ≠ some '/' ∧
      (match r.2 with
        | some children => wfList children
        | none => true) = true := by
    have h1 : (decide (stripRootPrefix r.1 ≠ []) &&
        decide ((stripRootPrefix r.1).getLast? ≠ some '/')) = true ∧
        (match r.2 with
          | some children => wfList children
          | none => true) = true := by
      rw [rootOk] at hok
      exact ⟨(Bool.and_eq_true_iff.mp hok).1, (Bool.and_eq_true_iff.mp hok).2⟩
    refine ⟨?_, ?_, h1.2⟩
    · have := (Bool.and_eq_true_iff.mp h1.1).1
      simpa using this
    · have := (Bool.and_eq_true_iff.mp h1.1).2
      simpa using this
  rcases hr : r.2 with _ | children
  · rw [rootBlockPaths]
    constructor
    · simp
    · intro q hq
      simp at hq
      exact Or.inl hq
  · have hwfc : wfList children = true := by
      have := hok'.2.2
      rw [hr] at this
      exact this
    have hspec := addFoldersList_spec children (stripRootPrefix r.1) hok'.1 hok'.2.1 hwfc
    rw [rootBlockPaths]
    constructor
    · rw [List.nodup_cons]
      refine ⟨?_, hspec.1⟩
      intro hmem
      obtain ⟨⟨c', hc', hu⟩, hne, hlast⟩ := hspec.2 _ hmem
      have hokc := okName_spec _ (wfNode_okName c' (wfList_mem children hwfc c' hc'))
      have hlab : pathJoin (stripRootPrefix r.1) (nodeName c') =
          stripRootPrefix r.1 ++ '/' :: nodeName c' :=
        pathJoin_eq _ _ hok'.1 hok'.2.1 hokc.2
      rcases hu with hu | hu
      · rw [hlab] at hu
        have hlen := congrArg List.length hu
        simp at hlen
      · rw [hlab] at hu
        have hlen := hu.length_le
        simp at hlen
    · intro q hq
      rcases List.mem_cons.mp hq with hq | hq
      · exact Or.inl hq
      · right
        obtain ⟨⟨c', hc', hu⟩, hne, hlast⟩ := hspec.2 _ hq
        have hokc := okName_spec _ (wfNode_okName c' (wfList_mem children hwfc c' hc'))
        have hlab : pathJoin (stripRootPrefix r.1) (nodeName c') =
            stripRootPrefix r.1 ++ '/' :: nodeName c' :=
          pathJoin_eq _ _ hok'.1 hok'.2.1 hokc.2
        rcases hu with hu | hu
        · rw [hu, hlab]
          exact ⟨nodeName c', by simp⟩
        · refine List.IsPrefix.trans ?_ hu
          rw [hlab]
          exact ⟨nodeName c' ++ ['/'], by simp⟩

/-- C6 is false as stated: selecting the roots /a and /a/b (the second
inside the first) with "include sub-folders" checked makes /a/b appear
twice in the folder set - once from the recursion under /a and once as a
root; the handler performs no deduplication. -/
theorem c6_counterexample :
    ((selectedFoldersOf [(strL "/a", some [FsNode.dir (strL "b") []]),
        (strL "/a/b", some [])] true).map Prod.fst) =
      [strL "/a", strL "/a/b", strL "/a/b"] ∧
      ¬ ((selectedFoldersOf [(strL "/a", some [FsNode.dir (strL "b") []]),
          (strL "/a/b", some [])] true).map Prod.fst).Nodup :=
  ⟨by decide, by decide⟩

/-- C6 amended: the folder set contains no duplicate paths provided the
normalized roots are pairwise distinct, no root lies inside another
selected root, each root path is nonempty and does not end in '/', and
each root's tree has, at every level, nonempty '/'-free pairwise-distinct
entry names.  This holds for both values of the include-sub-folders
flag. -/
theorem c6_folderset_nodup_amended (picked : List (Str × Option (List FsNode)))
    (includeSub : Bool)
    (hroots : ∀ r ∈ picked, rootOk r = true)
    (hpair : picked.Pairwise rootsCompat) :
    ((selectedFoldersOf picked includeSub).map Prod.fst).Nodup := by
  cases includeSub with
  | false =>
    simp only [selectedFoldersOf, Bool.false_eq_true, if_false, List.map_map]
    exact List.Pairwise.map _ (fun _ _ h => h.1) hpair
  | true =>
    rw [selectedFoldersOf_paths]
    induction picked with
    | nil => simp
    | cons r rest ih =>
      rw [List.flatMap_cons, List.nodup_append]
      have hokr := hroots r (List.mem_cons_self _ _)
      have hblock := rootBlockPaths_nodup r hokr
      refine ⟨hblock.1, ih (fun q hq => hroots q (List.mem_cons_of_mem _ hq))
        (List.Pairwise.sublist (List.sublist_cons_self _ _) hpair), ?_⟩
      intro q hq1 hq2
      obtain ⟨r', hr', hq2'⟩ := List.mem_flatMap.mp hq2
      have hokr' := hroots r' (List.mem_cons_of_mem _ hr')
      have hblock' := rootBlockPaths_nodup r' hokr'
      have hcomp := (List.pairwise_cons.mp hpair).1 r' hr'
      exact rootUnder_disjoint (stripRootPrefix r.1) (stripRootPrefix r'.1) q
        hcomp.1 hcomp.2.1 hcomp.2.2 (hblock.2 q hq1) (hblock'.2 q hq2')

/-- Witness for the amended C6 at a concrete input: two disjoint roots,
one containing a sub-folder, with recursion enabled. -/
theorem c6_folderset_nodup_amended_witness :
    ((selectedFoldersOf [(strL "/a", some [FsNode.dir (strL "b") []]),
        (strL "/c", some [])] true).map Prod.fst).Nodup :=
  c6_folderset_nodup_amended [(strL "/a", some [FsNode.dir (strL "b") []]),
      (strL "/c", some [])] true (by decide)
    (by
      refine List.Pairwise.cons ?_ (List.Pairwise.cons (by simp) List.Pairwise.nil)
      intro b hb
      simp at hb
      rw [hb]
      refine ⟨by decide, by decide, by decide⟩)

/-- C7 is false as stated: a selected root that does not exist is neither
excluded from the folder set nor reported - the handler (lines 719-748)
performs no existence check, so the path stays in `selectedFolders` (and
is displayed); it merely contributes no matched files because glob on a
missing folder returns nothing. -/
theorem c7_counterexample :
    ((selectedFoldersOf [(strL "/nope", none)] false).map Prod.fst) = [strL "/nope"] ∧
      ((selectedFoldersOf [(strL "/nope", none)] true).map Prod.fst) = [strL "/nope"] ∧
      computeFileList (selectedFoldersOf [(strL "/nope", none)] true) (strL "*.*") = [] :=
  ⟨by decide, by decide, by decide⟩

/-- C7 amended: an invalid (non-existing) root is non-fatal and per-item:
it contributes no matched files, and the file list is exactly the one
computed from the valid folders alone - collection continues for the
remaining roots.  The invalid root is not excluded from the folder set,
however, and nothing is reported. -/
theorem c7_invalid_roots_amended (folders : List (Str × Option (List FsNode)))
    (fileForm : Str) :
    computeFileList folders fileForm =
      computeFileList (folders.filter (fun r => r.2.isSome)) fileForm := by
  induction folders with
  | nil => rfl
  | cons r rest ih =>
    rcases r with ⟨p, och⟩
    simp only [computeFileList, List.flatMap_cons, List.filter_cons] at ih ⊢
    rcases och with _ | ch
    · simpa using ih
    · simpa using ih

def rootTreeOk (o : Option (List FsNode)) : Bool :=
  match o with
  | some children => wfList children
  | none => true

theorem splitOnChar_append_cons (sep : Char) (u v : Str) (hu : sep ∉ u) :
    splitOnChar sep (u ++ sep :: v) = u :: splitOnChar sep v := by
  induction u with
  | nil =>
    rw [List.nil_append, splitOnChar]
    rcases hs : splitOnChar sep v with _ | ⟨h', t⟩
    · exact absurd hs (splitOnChar_ne_nil sep v)
    · dsimp only
      rw [if_pos rfl, ← hs]
  | cons c u' ih =>
    have hcs : ¬ c = sep := fun hh => hu (by simp [hh])
    rw [List.cons_append, splitOnChar]
    rw [ih (fun hh => hu (List.mem_cons_of_mem _ hh))]
    dsimp only
    rw [if_neg hcs]

theorem glob_pattern_not_hidden (pattern name : Str)
    (hp : pattern.head? ≠ some '.') (h : globNameMatch pattern name = true) :
    name.head? ≠ some '.' := by
  intro hc
  rw [globNameMatch, hc] at h
  simp [hp] at h

mutual

theorem addFoldersNode_hidden : ∀ (c : FsNode) (dp : Str), dp ≠ [] →
    dp.getLast? ≠ some '/' → wfNode c = true →
    ∀ p ∈ (addFoldersNode dp c).map Prod.fst,
      ∀ seg ∈ splitOnChar '/' (p.drop (dp.length + 1)), seg ≠ [] ∧ seg.head? ≠ some '.'
  | FsNode.file n, dp, hdp, hdl, hwf => by
    simp [addFoldersNode]
  | FsNode.dir name children, dp, hdp, hdl, hwf => by
    have hok : okName name = true := by
      simp [wfNode] at hwf
      simpa [okName] using hwf.1
    have hwfc : wfList children = true := by
      simp [wfNode] at hwf
      exact hwf.2
    obtain ⟨hn, hns⟩ := okName_spec name hok
    have hPeq : pathJoin dp name = dp ++ '/' :: name := pathJoin_eq dp name hdp hdl hns
    have hPne : pathJoin dp name ≠ [] := by
      rw [hPeq]
      simp
    have hPlast : (pathJoin dp name).getLast? ≠ some '/' := by
      rw [hPeq]
      obtain ⟨a, ha, hamem⟩ := getLast?_of_ne_nil name hn
      rw [List.getLast?_append, getLast?_cons_of_ne_nil '/' name hn, ha]
      intro hh
      simp at hh
      exact hns (hh ▸ hamem)
    rw [addFoldersNode]
    by_cases hg : globNameMatch (strL "*") name = true
    · rw [if_pos hg]
      have hhid : name.head? ≠ some '.' :=
        glob_pattern_not_hidden (strL "*") name (by decide) hg
      have hdropP : (pathJoin dp name).drop (dp.length + 1) = name := by
        rw [hPeq]
        have : dp ++ '/' :: name = (dp ++ ['/']) ++ name := by simp
        rw [this]
        have hlen : (dp ++ ['/']).length = dp.length + 1 := by simp
        rw [← hlen, List.drop_left]
      intro p hp
      rw [List.map_cons] at hp
      rcases List.mem_cons.mp hp with hp | hp
      · rw [hp, hdropP, splitOnChar_of_not_mem '/' name hns]
        intro seg hseg
        simp at hseg
        rw [hseg]
        exact ⟨hn, hhid⟩
      · obtain ⟨⟨c', hc', hu⟩, hne, hlast⟩ :=
          (addFoldersList_spec children (pathJoin dp name) hPne hPlast hwfc).2 _ hp
        have hokc := okName_spec _ (wfNode_okName c' (wfList_mem children hwfc c' hc'))
        have hlab : pathJoin (pathJoin dp name) (nodeName c') =
            pathJoin dp name ++ '/' :: nodeName c' :=
          pathJoin_eq _ _ hPne hPlast hokc.2
        have hpre : (pathJoin dp name ++ ['/']) <+: p := by
          rcases hu with hu | hu
          · rw [hu, hlab]
            exact ⟨nodeName c', by simp⟩
          · refine List.IsPrefix.trans ?_ hu
            rw [hlab]
            exact ⟨nodeName c' ++ ['/'], by simp⟩
        obtain ⟨t0, ht0⟩ := hpre
        have hdropp : p.drop (dp.length + 1) = name ++ '/' :: t0 := by
          rw [← ht0, hPeq]
          have : (dp ++ '/' :: name ++ ['/']) ++ t0 =
              (dp ++ ['/']) ++ (name ++ '/' :: t0) := by simp
          rw [this]
          have hlen : (dp ++ ['/']).length = dp.length + 1 := by simp
          rw [← hlen, List.drop_left]
        have hdropt : p.drop ((pathJoin dp name).length + 1) = t0 := by
          rw [← ht0]
          have : (pathJoin dp name ++ ['/']) ++ t0 = (pathJoin dp name ++ ['/']) ++ t0 := rfl
          have hlen : (pathJoin dp name ++ ['/']).length = (pathJoin dp name).length + 1 := by
            simp
          rw [← hlen, List.drop_left]
        have hih := addFoldersList_hidden children (pathJoin dp name) hPne hPlast hwfc p hp
        rw [hdropt] at hih
        rw [hdropp, splitOnChar_append_cons '/' name t0 hns]
        intro seg hseg
        rcases List.mem_cons.mp hseg with hseg | hseg
        · rw [hseg]
          exact ⟨hn, hhid⟩
        · exact hih seg hseg
    · rw [if_neg hg]
      simp

theorem addFoldersList_hidden : ∀ (l : List FsNode) (dp : Str), dp ≠ [] →
    dp.getLast? ≠ some '/' → wfList l = true →
    ∀ p ∈ (addFoldersList dp l).map Prod.fst,
      ∀ seg ∈ splitOnChar '/' (p.drop (dp.length + 1)), seg ≠ [] ∧ seg.head? ≠ some '.'
  | [], dp, hdp, hdl, hwf => by
    simp [addFoldersList]
  | c :: rest, dp, hdp, hdl, hwf => by
    have hwf' : (wfNode c = true ∧ nodeName c ∉ rest.map nodeName) ∧ wfList rest = true := by
      simpa [wfList] using hwf
    intro p hp
    rw [addFoldersList, List.map_append] at hp
    rcases List.mem_append.mp hp with hp | hp
    · exact addFoldersNode_hidden c dp hdp hdl hwf'.1.1 p hp
    · exact addFoldersList_hidden rest dp hdp hdl hwf'.2 p hp

end

/-- C10: hidden entries are excluded everywhere.  First conjunct: under a
well-formed tree, every folder appended by the recursive traversal has
all of its path components below the root nonempty and not starting with
'.' - hidden sub-folders are never appended and never recursed into,
because glob's '*' pattern hides names starting with '.'.  Second
conjunct: for any match pattern that does not itself start with '.' (such
as the default "*.*"), no matched file path has a base name starting with
'.'. -/
theorem c10_hidden_never_included :
    (∀ (dp : Str) (l : List FsNode), dp ≠ [] → dp.getLast? ≠ some '/' →
      wfList l = true →
      ∀ p ∈ (addFoldersList dp l).map Prod.fst,
        ∀ seg ∈ splitOnChar '/' (p.drop (dp.length + 1)),
          seg ≠ [] ∧ seg.head? ≠ some '.') ∧
    (∀ (folders : List (Str × Option (List FsNode))) (fileForm : Str),
      fileForm.head? ≠ some '.' →
      (∀ r ∈ folders, rootTreeOk r.2 = true) →
      ∀ f ∈ computeFileList folders fileForm, (basename f).head? ≠ some '.') := by
  constructor
  · intro dp l hdp hdl hwf p hp
    exact addFoldersList_hidden l dp hdp hdl hwf p hp
  · intro folders fileForm hpat hwf f hf
    rw [computeFileList] at hf
    obtain ⟨r, hr, hf'⟩ := List.mem_flatMap.mp hf
    rcases hrr : r.2 with _ | children
    · rw [hrr] at hf'
      simp at hf'
    · rw [hrr] at hf'
      simp only [List.mem_map] at hf'
      obtain ⟨c, hc, hceq⟩ := hf'
      have hcm := List.mem_filter.mp hc
      have hwfc : wfList children = true := by
        have h9 := hwf r hr
        rw [hrr] at h9
        simpa [rootTreeOk] using h9
      have hokc := okName_spec _ (wfNode_okName c (wfList_mem children hwfc c hcm.1))
      have hglob : globNameMatch fileForm (nodeName c) = true := by
        simpa using hcm.2
      have hhid := glob_pattern_not_hidden fileForm (nodeName c) hpat hglob
      rw [← hceq, basename_pathJoin, basename_of_no_slash _ hokc.2]
      exact hhid

/-- Witness for C10 at a concrete input: a tree with a hidden sub-folder
and a hidden file. -/
theorem c10_hidden_never_included_witness :
    (∀ p ∈ (addFoldersList (strL "/r")
        [FsNode.dir (strL ".h") [], FsNode.dir (strL "a") []]).map Prod.fst,
      ∀ seg ∈ splitOnChar '/' (p.drop ((strL "/r").length + 1)),
        seg ≠ [] ∧ seg.head? ≠ some '.') ∧
    (∀ f ∈ computeFileList [(strL "/r",
          some [FsNode.file (strL ".y.txt"), FsNode.file (strL "x.txt")])] (strL "*.*"),
      (basename f).head? ≠ some '.') := by
  constructor
  · exact c10_hidden_never_included.1 (strL "/r")
      [FsNode.dir (strL ".h") [], FsNode.dir (strL "a") []]
      (by decide) (by decide) (by decide)
  · exact c10_hidden_never_included.2
      [(strL "/r", some [FsNode.file (strL ".y.txt"), FsNode.file (strL "x.txt")])]
      (strL "*.*") (by decide) (by decide)

end PyFileRen
